import Mathlib

/-!
# Verification of the CCPS Safety-Beacon harvester

A shallow embedding, in Lean 4, of the python harvester scripts
(`backend/collecter_past.py`, `tools/collecter_past.py`,
`tools/apply_ccps_keyword_map.py`, `tools/prep_ccps_supabase_csv.py`)
together with proofs and refutations of the specified properties.

Python strings are modelled as `List Char`; the network, the local
filesystem and the remote datastore are modelled as explicit oracles and
effect traces.  Fallible python operations (a `requests` call that can
raise, a PDF parse that can fail) are modelled with `Option`/`Except`.
-/

namespace CCPS

/-- Python strings are modelled as lists of characters. -/
abbrev Str := List Char

/-- Convenience coercion from Lean string literals to the `Str` model. -/
def str (s : String) : Str := s.data

/-- Python `str.lower()`. -/
def toLowerStr (s : Str) : Str := s.map Char.toLower

/-- Python `str.strip()`: drop leading and trailing whitespace. -/
def trimStr (s : Str) : Str :=
  ((s.dropWhile Char.isWhitespace).reverse.dropWhile Char.isWhitespace).reverse

/-- Python's `pat in s` substring test (`pat` occurs contiguously in `s`). -/
def containsSub (s pat : Str) : Bool :=
  match s with
  | [] => pat.isPrefixOf ([] : Str)
  | _ :: t => pat.isPrefixOf s || containsSub t pat

/-- Python `str.endswith(pat)`. -/
def endsWithStr (s pat : Str) : Bool := pat.isSuffixOf s

/-- Python `s.rstrip("/")`: drop all trailing `'/'` characters. -/
def rstripSlash (s : Str) : Str := (s.reverse.dropWhile (· = '/')).reverse

/-- Render a natural number in decimal, as python `str(n)` / f-string `{n}`. -/
def natStr (n : Nat) : Str := (toString n).data

/-- Python f-string `{n:02d}`: zero-pad to two digits. -/
def pad2 (n : Nat) : Str := if n < 10 then '0' :: natStr n else natStr n

/-! ## `tools/apply_ccps_keyword_map.py`: `chunked`

```python
def chunked(lst: list[Any], n: int) -> list[list[Any]]:
    return [lst[i : i + n] for i in range(0, len(lst), n)]
```

`range(0, len(lst), n)` enumerates `0, n, 2n, …` strictly below `len(lst)`,
which for `n > 0` is `⌈len(lst)/n⌉` indices; the slice `lst[i : i + n]`
is `(lst.drop i).take n`.  (`range` with step `0` raises `ValueError` in
python; that case is modelled as producing no chunks.)
-/

/-- `tools/apply_ccps_keyword_map.py`, `chunked`. -/
def chunked (lst : List α) (n : Nat) : List (List α) :=
  if n = 0 then []
  else (List.range' 0 ((lst.length + n - 1) / n) n).map
    (fun i => (lst.drop i).take n)

/-- Recursive reformulation of `chunked`, used to reason by induction. -/
def chunkRec (n : Nat) (l : List α) : List (List α) :=
  match n, l with
  | 0, _ => []
  | _ + 1, [] => []
  | n + 1, x :: xs => ((x :: xs).take (n + 1)) :: chunkRec (n + 1) (xs.drop n)
termination_by l.length
decreasing_by
  simp only [List.length_drop, List.length_cons]
  omega

theorem chunkRec_nil (n : Nat) : chunkRec n ([] : List α) = [] := by
  cases n <;> simp [chunkRec]

theorem chunkRec_zero (l : List α) : chunkRec 0 l = [] := by
  cases l <;> simp [chunkRec]

theorem chunkRec_cons (m : Nat) (x : α) (xs : List α) :
    chunkRec (m + 1) (x :: xs)
      = ((x :: xs).take (m + 1)) :: chunkRec (m + 1) (xs.drop m) := by
  simp [chunkRec]

theorem length_drop_lt {x : α} {xs : List α} (n : Nat) :
    (xs.drop n).length < (x :: xs).length := by
  simp only [List.length_drop, List.length_cons]
  omega

/-- The number of chunks computed by the python `range` arithmetic agrees
with recursively peeling one chunk off the front. -/
theorem ceil_div_succ (L n : Nat) (hL : 0 < L) (hn : 0 < n) :
    (L + n - 1) / n = ((L - n) + n - 1) / n + 1 := by
  rcases Nat.lt_or_ge L n with h | h
  · have h1 : L - n = 0 := Nat.sub_eq_zero_of_le (Nat.le_of_lt h)
    have h2 : (0 + n - 1) / n = 0 := Nat.div_eq_of_lt (by omega)
    have h3 : (L + n - 1) / n = 1 :=
      Nat.div_eq_of_lt_le (by omega) (by omega)
    rw [h1, h2, h3]
  · have h1 : L - n + n - 1 = L - 1 := by omega
    have h2 : L + n - 1 = (L - 1) + n := by omega
    rw [h1, h2, Nat.add_div_right _ hn]

/-- Shifting the start of a stepped `range'` corresponds to pre-dropping
from the list being chunked. -/
theorem map_drop_range'_shift (l : List α) (k c s : Nat) :
    (List.range' s c k).map (fun i => (l.drop i).take k)
      = (List.range' 0 c k).map (fun i => ((l.drop s).drop i).take k) := by
  have hr : List.range' s c k = (List.range' 0 c k).map (fun i => s + i) := by
    have := List.map_add_range' s 0 c k
    rw [Nat.add_zero] at this
    exact this.symm
  rw [hr, List.map_map]
  apply List.map_congr_left
  intro i _
  simp [List.drop_drop]

/-- The mapped-`range'` chunk computation equals the recursive
formulation, for any count expression equal to the ceiling division the
python `range` produces (fuel-indexed induction on the list length). -/
theorem map_range'_eq_chunkRec (m : Nat) :
    ∀ (L : Nat) (l : List α), l.length ≤ L → ∀ (c : Nat),
      c = (l.length + (m + 1) - 1) / (m + 1) →
      (List.range' 0 c (m + 1)).map (fun i => (l.drop i).take (m + 1))
        = chunkRec (m + 1) l := by
  intro L
  induction L with
  | zero =>
    intro l hl c hc
    have hnil : l = [] := List.length_eq_zero.mp (Nat.le_zero.mp hl)
    subst hnil
    have h0 : c = 0 := by
      rw [hc]
      apply Nat.div_eq_of_lt
      simp only [List.length_nil]
      omega
    subst h0
    rw [chunkRec_nil]
    rfl
  | succ L ih =>
    intro l hl c hc
    cases l with
    | nil =>
      have h0 : c = 0 := by
        rw [hc]
        apply Nat.div_eq_of_lt
        simp only [List.length_nil]
        omega
      subst h0
      rw [chunkRec_nil]
      rfl
    | cons x xs =>
      have hlen : 0 < (x :: xs).length := by simp
      have hdroplen : (x :: xs).length - (m + 1) = (xs.drop m).length := by
        simp only [List.length_drop, List.length_cons]
        omega
      have hfuel : (xs.drop m).length ≤ L := by
        simp only [List.length_drop]
        simp only [List.length_cons] at hl
        omega
      have hsplit : c = ((xs.drop m).length + (m + 1) - 1) / (m + 1) + 1 := by
        rw [hc, ceil_div_succ _ _ hlen (Nat.succ_pos m), hdroplen]
      rw [hsplit, List.range'_succ, List.map_cons, List.drop_zero, chunkRec_cons]
      congr 1
      rw [map_drop_range'_shift, Nat.zero_add]
      rw [show List.drop (m + 1) (x :: xs) = List.drop m xs from rfl]
      exact ih (xs.drop m) hfuel _ rfl

/-- `chunked` computes the same chunks as the recursive formulation. -/
theorem chunked_eq_chunkRec (n : Nat) (lst : List α) :
    chunked lst n = chunkRec n lst := by
  cases n with
  | zero => simp [chunked, chunkRec_zero]
  | succ m =>
    unfold chunked
    rw [if_neg (Nat.succ_ne_zero m)]
    exact map_range'_eq_chunkRec m lst.length lst (Nat.le_refl _) _ rfl

theorem chunkRec_flatten_fuel (n : Nat) (hn : 0 < n) :
    ∀ (L : Nat) (l : List α), l.length ≤ L → (chunkRec n l).flatten = l := by
  intro L
  induction L with
  | zero =>
    intro l hl
    have hnil : l = [] := List.length_eq_zero.mp (Nat.le_zero.mp hl)
    subst hnil
    simp [chunkRec_nil]
  | succ L ih =>
    intro l hl
    cases n with
    | zero => omega
    | succ m =>
      cases l with
      | nil => simp [chunkRec_nil]
      | cons x xs =>
        have hfuel : (xs.drop m).length ≤ L := by
          simp only [List.length_drop]
          simp only [List.length_cons] at hl
          omega
        rw [chunkRec_cons, List.flatten_cons, ih (xs.drop m) hfuel]
        have hdr : (x :: xs).drop (m + 1) = xs.drop m := rfl
        rw [← hdr, List.take_append_drop]

theorem chunkRec_flatten (n : Nat) (l : List α) (hn : 0 < n) :
    (chunkRec n l).flatten = l :=
  chunkRec_flatten_fuel n hn l.length l (Nat.le_refl _)

theorem chunkRec_ne_nil_fuel (n : Nat) :
    ∀ (L : Nat) (l : List α), l.length ≤ L → ∀ c ∈ chunkRec n l, c ≠ [] := by
  intro L
  induction L with
  | zero =>
    intro l hl c hc
    have hnil : l = [] := List.length_eq_zero.mp (Nat.le_zero.mp hl)
    subst hnil
    rw [chunkRec_nil] at hc
    simp at hc
  | succ L ih =>
    intro l hl c hc
    cases n with
    | zero => rw [chunkRec_zero] at hc; simp at hc
    | succ m =>
      cases l with
      | nil => rw [chunkRec_nil] at hc; simp at hc
      | cons x xs =>
        have hfuel : (xs.drop m).length ≤ L := by
          simp only [List.length_drop]
          simp only [List.length_cons] at hl
          omega
        rw [chunkRec_cons] at hc
        rcases List.mem_cons.mp hc with h | h
        · subst h
          simp
        · exact ih (xs.drop m) hfuel c h

theorem chunkRec_ne_nil (n : Nat) (l : List α) (c : List α)
    (hc : c ∈ chunkRec n l) : c ≠ [] :=
  chunkRec_ne_nil_fuel n l.length l (Nat.le_refl _) c hc

theorem chunkRec_length_le_fuel (n : Nat) :
    ∀ (L : Nat) (l : List α), l.length ≤ L → ∀ c ∈ chunkRec n l, c.length ≤ n := by
  intro L
  induction L with
  | zero =>
    intro l hl c hc
    have hnil : l = [] := List.length_eq_zero.mp (Nat.le_zero.mp hl)
    subst hnil
    rw [chunkRec_nil] at hc
    simp at hc
  | succ L ih =>
    intro l hl c hc
    cases n with
    | zero => rw [chunkRec_zero] at hc; simp at hc
    | succ m =>
      cases l with
      | nil => rw [chunkRec_nil] at hc; simp at hc
      | cons x xs =>
        have hfuel : (xs.drop m).length ≤ L := by
          simp only [List.length_drop]
          simp only [List.length_cons] at hl
          omega
        rw [chunkRec_cons] at hc
        rcases List.mem_cons.mp hc with h | h
        · subst h
          exact List.length_take_le (m + 1) (x :: xs)
        · exact ih (xs.drop m) hfuel c h

theorem chunkRec_length_le (n : Nat) (l : List α) (c : List α)
    (hc : c ∈ chunkRec n l) : c.length ≤ n :=
  chunkRec_length_le_fuel n l.length l (Nat.le_refl _) c hc

theorem chunkRec_dropLast_length_fuel (n : Nat) :
    ∀ (L : Nat) (l : List α), l.length ≤ L →
      ∀ c ∈ (chunkRec n l).dropLast, c.length = n := by
  intro L
  induction L with
  | zero =>
    intro l hl c hc
    have hnil : l = [] := List.length_eq_zero.mp (Nat.le_zero.mp hl)
    subst hnil
    rw [chunkRec_nil] at hc
    simp at hc
  | succ L ih =>
    intro l hl c hc
    cases n with
    | zero => rw [chunkRec_zero] at hc; simp at hc
    | succ m =>
      cases l with
      | nil => rw [chunkRec_nil] at hc; simp at hc
      | cons x xs =>
        have hfuel : (xs.drop m).length ≤ L := by
          simp only [List.length_drop]
          simp only [List.length_cons] at hl
          omega
        rw [chunkRec_cons] at hc
        cases hrest : chunkRec (m + 1) (xs.drop m) with
        | nil => rw [hrest] at hc; simp at hc
        | cons y ys =>
          rw [hrest, List.dropLast_cons_of_ne_nil (by simp)] at hc
          rcases List.mem_cons.mp hc with h | h
          · subst h
            have hlen : m + 1 ≤ (x :: xs).length := by
              by_contra hcon
              push_neg at hcon
              have hdrop : xs.drop m = [] := by
                apply List.drop_of_length_le
                simp only [List.length_cons] at hcon
                omega
              rw [hdrop, chunkRec_nil] at hrest
              exact List.noConfusion hrest
            rw [List.length_take]
            simp only [List.length_cons] at hlen ⊢
            omega
          · apply ih (xs.drop m) hfuel c
            rw [hrest]
            exact h

theorem chunkRec_dropLast_length (n : Nat) (l : List α) (c : List α)
    (hc : c ∈ (chunkRec n l).dropLast) : c.length = n :=
  chunkRec_dropLast_length_fuel n l.length l (Nat.le_refl _) c hc

/-- **C9.** For every list `lst` and chunk size `n > 0`:
the concatenation of `chunked lst n` equals `lst`; every chunk is
non-empty; every chunk except possibly the last has length exactly `n`;
and the last chunk has length at most `n`. -/
theorem chunked_spec {α : Type} (lst : List α) (n : Nat) (hn : 0 < n) :
    (chunked lst n).flatten = lst
    ∧ (∀ c ∈ chunked lst n, c ≠ [])
    ∧ (∀ c ∈ (chunked lst n).dropLast, c.length = n)
    ∧ (∀ c ∈ chunked lst n, c.length ≤ n) := by
  rw [chunked_eq_chunkRec]
  exact ⟨chunkRec_flatten n lst hn,
    fun c hc => chunkRec_ne_nil n lst c hc,
    fun c hc => chunkRec_dropLast_length n lst c hc,
    fun c hc => chunkRec_length_le n lst c hc⟩

/-- Witness for **C9** at `lst = [10, 20, 30, 40, 50]`, `n = 2`. -/
theorem chunked_spec_witness :
    (0 < 2)
    ∧ ((chunked [10, 20, 30, 40, 50] 2).flatten = [10, 20, 30, 40, 50]
      ∧ (∀ c ∈ chunked [10, 20, 30, 40, 50] 2, c ≠ [])
      ∧ (∀ c ∈ (chunked [10, 20, 30, 40, 50] 2).dropLast, c.length = 2)
      ∧ (∀ c ∈ chunked [10, 20, 30, 40, 50] 2, c.length ≤ 2)) :=
  ⟨by decide, chunked_spec [10, 20, 30, 40, 50] 2 (by decide)⟩


/-! ## HTML and URL model

An HTML document is modelled by the data the scripts inspect: the list of
`<a href=…>` anchors (visible text and raw `href`), and the first `<h1>`
heading, if any.
-/

/-- One `<a href=…>` element: its visible text and its raw `href`. -/
structure Anchor where
  text : Str
  href : Str
deriving DecidableEq, Repr

/-- An HTML page, as seen by the scripts. -/
structure Html where
  anchors : List Anchor
  h1 : Option Str := none
deriving DecidableEq, Repr

/-- First occurrence split: `splitAtSub s pat = some (before, after)` when
`pat` occurs in `s`, splitting around the leftmost occurrence. -/
def splitAtSub (s pat : Str) : Option (Str × Str) :=
  match s with
  | [] => if pat = [] then some ([], []) else none
  | c :: t =>
    if pat.isPrefixOf (c :: t) then some ([], (c :: t).drop pat.length)
    else match splitAtSub t pat with
      | some (p, r) => some (c :: p, r)
      | none => none

/-- Whether a URL carries a scheme (`"://"` occurs in it). -/
def hasScheme (u : Str) : Bool := (splitAtSub u (str "://")).isSome

/-- Scheme plus authority of a URL: everything up to the first `'/'` after
`"://"`. -/
def schemeHost (u : Str) : Str :=
  match splitAtSub u (str "://") with
  | some (p, r) => p ++ str "://" ++ r.takeWhile (· ≠ '/')
  | none => []

/-- Drop query and fragment from a URL. -/
def stripQueryFrag (u : Str) : Str := u.takeWhile (fun c => c ≠ '?' && c ≠ '#')

/-- Everything up to and including the last `'/'`. -/
def dropLastSegment (u : Str) : Str := (u.reverse.dropWhile (· ≠ '/')).reverse

/-- Model of `urllib.parse.urljoin(base, href)` for the href shapes that
occur in this codebase: absolute URLs, root-relative paths, bare query
strings, and relative paths. -/
def urljoin (base href : Str) : Str :=
  if href = [] then base
  else if hasScheme href then href
  else if href.head? = some '/' then schemeHost base ++ href
  else if href.head? = some '?' then stripQueryFrag base ++ href
  else dropLastSegment (stripQueryFrag base) ++ href

/-! ## `backend/collecter_past.py`: constants and URL parsing -/

/-- `ARCHIVES_ROOT` of `backend/collecter_past.py`. -/
def ARCHIVES_ROOT : Str :=
  str "https://ccps.aiche.org/resources/process-safety-beacon/archives"

/-- The `MONTHS` lookup table. -/
def MONTHS : List (Str × Nat) :=
  [(str "january", 1), (str "february", 2), (str "march", 3),
   (str "april", 4), (str "may", 5), (str "june", 6),
   (str "july", 7), (str "august", 8), (str "september", 9),
   (str "october", 10), (str "november", 11), (str "december", 12)]

/-- `MONTHS.get(name)`. -/
def monthsLookup (m : Str) : Option Nat :=
  (MONTHS.find? (fun p => p.1 = m)).map (·.2)

def isLowerAlpha (c : Char) : Bool := 'a' ≤ c && c ≤ 'z'

def isDigitChar (c : Char) : Bool := c.isDigit

/-- Structural reading of `re.search(r"/archives/(\d{4})/([a-z]+)/english/?$", url)`:
the URL must end (up to one optional trailing slash) with
`"/archives/" ++ year(4 digits) ++ "/" ++ month([a-z]+) ++ "/english"`;
returns the two capture groups (year digits, month letters). -/
def matchArchivesEnglish (url : Str) : Option (Str × Str) :=
  let u := if url.getLast? = some '/' then url.dropLast else url
  if endsWithStr u (str "/english") then
    let r1 := u.take (u.length - 8)
    let monthRev := r1.reverse.takeWhile isLowerAlpha
    if monthRev = [] then none
    else
      let r2 := r1.take (r1.length - monthRev.length)
      if endsWithStr r2 (str "/") then
        let r3 := r2.dropLast
        let yearRev := r3.reverse.take 4
        if yearRev.length = 4 && yearRev.all isDigitChar then
          let r4 := r3.take (r3.length - 4)
          if endsWithStr r4 (str "/archives/") then
            some (yearRev.reverse, monthRev.reverse)
          else none
        else none
      else none
  else none

/-- `int` on a string of decimal digits, as python `int(m.group(1))`. -/
def digitsToNat (s : Str) : Nat :=
  s.foldl (fun acc c => acc * 10 + (c.toNat - 48)) 0

/-- `backend/collecter_past.py`, `parse_year_month_from_english_url`. -/
def parse_year_month_from_english_url (url : Str) : Option (Nat × Nat) :=
  match matchArchivesEnglish url with
  | none => none
  | some (y, mo) =>
    match monthsLookup (toLowerStr mo) with
    | none => none
    | some month => some (digitsToNat y, month)

/-- `backend/collecter_past.py`, `extract_english_links_from_archive_page`:
anchors whose resolved URL matches the year/month/english pattern, with
trailing slashes stripped. -/
def extract_english_links_from_archive_page (html : Html) : List Str :=
  html.anchors.filterMap (fun a =>
    if (matchArchivesEnglish (urljoin ARCHIVES_ROOT a.href)).isSome
    then some (rstripSlash (urljoin ARCHIVES_ROOT a.href))
    else none)

/-- `urlparse(u).query`: the text after the first `'?'`, before any `'#'`. -/
def queryString (u : Str) : Str :=
  match splitAtSub u (str "?") with
  | none => []
  | some (_, r) => r.takeWhile (· ≠ '#')

/-- Python `str.split(c)`. -/
def splitOnChar (c : Char) (s : Str) : List Str :=
  match s with
  | [] => [[]]
  | x :: t =>
    let rest := splitOnChar c t
    if x = c then [] :: rest
    else match rest with
      | [] => [[x]]
      | r :: rs => (x :: r) :: rs

/-- One `key=value` piece of a query string, as `urllib.parse.parse_qs`
reads it (pieces without `'='` or with an empty value are dropped). -/
def qsPair (piece : Str) : Option (Str × Str) :=
  match splitAtSub piece (str "=") with
  | none => none
  | some (k, v) => if v = [] then none else some (k, v)

/-- `parse_qs(query)["page"][0]`: the value of the first `page=…` piece. -/
def parse_qs_page_first (query : Str) : Option Str :=
  (splitOnChar '&' query).findSome? (fun piece =>
    match qsPair piece with
    | some (k, v) => if k = str "page" then some v else none
    | none => none)

/-- Python `int(s)` on a stripped decimal string with optional sign
(underscore separators are not modelled; none occur in URLs here). -/
def pyInt? (s : Str) : Option Int :=
  let t := trimStr s
  match t with
  | '-' :: ds =>
    if ds ≠ [] && ds.all isDigitChar then some (-(digitsToNat ds : Int)) else none
  | '+' :: ds =>
    if ds ≠ [] && ds.all isDigitChar then some ((digitsToNat ds : Int)) else none
  | ds =>
    if ds ≠ [] && ds.all isDigitChar then some ((digitsToNat ds : Int)) else none

/-- `backend/collecter_past.py`, `parse_last_page_num`: the largest integer
`page` query parameter over all anchors (0 if none parses). -/
def parse_last_page_num (html : Html) : Int :=
  html.anchors.foldl (fun max_page a =>
    let full := urljoin ARCHIVES_ROOT a.href
    match parse_qs_page_first (queryString full) with
    | none => max_page
    | some v =>
      match pyInt? v with
      | none => max_page
      | some p => max max_page p) 0

/-! ## `backend/collecter_past.py`: `discover_english_pages`

The network is an oracle from listing-page index to HTML (`none` models a
raised `requests` exception, which propagates out of the function); page 0
is the bare `ARCHIVES_ROOT`, page `i > 0` is `ARCHIVES_ROOT?page=i`.
The function also returns the trace of listing-page indices fetched by the
main loop, so stopping behaviour can be stated.
-/

structure ListingEnv where
  fetchListing : Nat → Option Html

/-- Python `set.add` on a list model: append if absent. -/
def insertIfAbsent {α : Type} [DecidableEq α] (u : α) (l : List α) : List α :=
  if u ∈ l then l else l ++ [u]

/-- `years_in_page`: years of the parsable links on one listing page. -/
def years_in_page (links : List Str) : List Nat :=
  links.filterMap (fun u => (parse_year_month_from_english_url u).map Prod.fst)

/-- One page's `pages.add(u)` loop: keep parsable links with year ≥ cutoff. -/
def addKept (min_year : Nat) (acc : List Str) (links : List Str) : List Str :=
  links.foldl (fun a u =>
    match parse_year_month_from_english_url u with
    | none => a
    | some (y, _) => if min_year ≤ y then insertIfAbsent u a else a) acc

/-- The loop's early-stop test
`years_in_page and max(years_in_page) < min_year`. -/
def pageStopBool (min_year : Nat) (html : Html) : Bool :=
  !(years_in_page (extract_english_links_from_archive_page html)).isEmpty
    && decide ((years_in_page
      (extract_english_links_from_archive_page html)).foldl max 0 < min_year)

/-- The `for page in range(0, last_page + 1)` loop of
`discover_english_pages`, over the remaining page indices.  Returns the
accumulated set and the trace of fetched page indices. -/
def discoverLoop (env : ListingEnv) (min_year : Nat) :
    List Nat → List Str → Except Unit (List Str × List Nat)
  | [], acc => .ok (acc, [])
  | i :: rest, acc =>
    match env.fetchListing i with
    | none => .error ()
    | some html =>
      if extract_english_links_from_archive_page html = [] then .ok (acc, [i])
      else
        if pageStopBool min_year html then
          .ok (addKept min_year acc (extract_english_links_from_archive_page html), [i])
        else
          match discoverLoop env min_year rest
              (addKept min_year acc (extract_english_links_from_archive_page html)) with
          | .error e => .error e
          | .ok (accF, tr) => .ok (accF, i :: tr)

/-- Sort key `(year, month)` (or `(0, 0)` for an unparsable URL). -/
def ymKey (u : Str) : Nat × Nat :=
  (parse_year_month_from_english_url u).getD (0, 0)

/-- Lexicographic `≤` on `(year, month)` pairs. -/
def ymLeB (p q : Nat × Nat) : Bool :=
  p.1 < q.1 || (p.1 = q.1 && p.2 ≤ q.2)

/-- Comparator realising python `sorted(key=sort_key, reverse=True)`. -/
def descLe (a b : Str) : Bool := ymLeB (ymKey b) (ymKey a)

/-- `descLe` as a decidable relation, for sorting. -/
def DescRel (a b : Str) : Prop := descLe a b = true

instance : DecidableRel DescRel := fun a b => by
  unfold DescRel
  infer_instance

/-- `last_page` (capped by `max_pages`, python `min(last_page, max_pages - 1)`)
plus one: the number of listing pages the loop will visit. -/
def discoverPageCount (firstHtml : Html) (max_pages : Option Int) : Nat :=
  ((match max_pages with
    | none => parse_last_page_num firstHtml
    | some mp => min (parse_last_page_num firstHtml) (mp - 1)) + 1).toNat

/-- `backend/collecter_past.py`, `discover_english_pages`. -/
def discover_english_pages (env : ListingEnv) (min_year : Nat)
    (max_pages : Option Int) : Except Unit (List Str × List Nat) :=
  match env.fetchListing 0 with
  | none => .error ()
  | some firstHtml =>
    match discoverLoop env min_year
        (List.range (discoverPageCount firstHtml max_pages)) [] with
    | .error e => .error e
    | .ok (pages, tr) => .ok (List.insertionSort DescRel pages, tr)

/-! ## Properties of archive discovery (helper lemmas) -/

instance instDecEqExcept {ε α : Type} [DecidableEq ε] [DecidableEq α] :
    DecidableEq (Except ε α)
  | .ok a, .ok b =>
    if h : a = b then isTrue (congrArg Except.ok h)
    else isFalse (fun hc => h (Except.ok.inj hc))
  | .error a, .error b =>
    if h : a = b then isTrue (congrArg Except.error h)
    else isFalse (fun hc => h (Except.error.inj hc))
  | .ok _, .error _ => isFalse (fun hc => Except.noConfusion hc)
  | .error _, .ok _ => isFalse (fun hc => Except.noConfusion hc)

theorem foldl_max_lt_iff :
    ∀ (l : List Nat) (b m : Nat), l.foldl max b < m ↔ b < m ∧ ∀ y ∈ l, y < m := by
  intro l
  induction l with
  | nil =>
    intro b m
    simp [List.foldl_nil]
  | cons a t ih =>
    intro b m
    rw [List.foldl_cons, ih]
    constructor
    · rintro ⟨hmax, hall⟩
      rw [Nat.max_lt] at hmax
      refine ⟨hmax.1, fun y hy => ?_⟩
      rcases List.mem_cons.mp hy with rfl | hy'
      · exact hmax.2
      · exact hall y hy'
    · rintro ⟨hb, hall⟩
      exact ⟨Nat.max_lt.mpr ⟨hb, hall a (List.mem_cons_self a t)⟩,
        fun y hy => hall y (List.mem_cons_of_mem _ hy)⟩

/-- The loop's stop test means: some link on the page parses, and every
parsable link's year is below the cutoff. -/
theorem pageStopBool_iff (min_year : Nat) (html : Html) :
    pageStopBool min_year html = true
      ↔ years_in_page (extract_english_links_from_archive_page html) ≠ []
        ∧ ∀ y ∈ years_in_page (extract_english_links_from_archive_page html),
            y < min_year := by
  unfold pageStopBool
  generalize years_in_page (extract_english_links_from_archive_page html) = ys
  constructor
  · intro h
    rw [Bool.and_eq_true] at h
    obtain ⟨h1, h2⟩ := h
    have h2' := (foldl_max_lt_iff ys 0 min_year).mp (of_decide_eq_true h2)
    refine ⟨?_, h2'.2⟩
    intro hnil
    subst hnil
    simp at h1
  · rintro ⟨hne, hall⟩
    have h0 : 0 < min_year := by
      cases ys with
      | nil => exact absurd rfl hne
      | cons a t =>
        have := hall a (List.mem_cons_self a t)
        omega
    rw [Bool.and_eq_true]
    refine ⟨?_, decide_eq_true ((foldl_max_lt_iff ys 0 min_year).mpr ⟨h0, hall⟩)⟩
    cases ys with
    | nil => exact absurd rfl hne
    | cons a t => rfl

theorem insertIfAbsent_mem {α : Type} [DecidableEq α] (u v : α) (l : List α) :
    u ∈ insertIfAbsent v l ↔ u ∈ l ∨ u = v := by
  unfold insertIfAbsent
  split
  · rename_i hv
    constructor
    · exact Or.inl
    · rintro (h | rfl)
      · exact h
      · exact hv
  · rw [List.mem_append, List.mem_singleton]

theorem insertIfAbsent_nodup {α : Type} [DecidableEq α] (v : α) (l : List α)
    (h : l.Nodup) : (insertIfAbsent v l).Nodup := by
  unfold insertIfAbsent
  split
  · exact h
  · rename_i hv
    refine List.Nodup.append h (List.nodup_singleton v) ?_
    intro a ha hb
    rw [List.mem_singleton] at hb
    subst hb
    exact hv ha

/-- Every element surviving one page's `pages.add` loop either was already
present or is a link of the page that parses with year ≥ cutoff. -/
theorem addKept_forall {P : Str → Prop} (min_year : Nat) :
    ∀ (links acc : List Str),
      (∀ u ∈ acc, P u) →
      (∀ u ∈ links, ∀ y m, parse_year_month_from_english_url u = some (y, m) →
        min_year ≤ y → P u) →
      ∀ u ∈ addKept min_year acc links, P u := by
  intro links
  induction links with
  | nil =>
    intro acc hacc _ u hu
    exact hacc u hu
  | cons v t ih =>
    intro acc hacc hlinks u hu
    have hstep : addKept min_year acc (v :: t)
        = addKept min_year
            (match parse_year_month_from_english_url v with
             | none => acc
             | some (y, _) => if min_year ≤ y then insertIfAbsent v acc else acc)
            t := rfl
    rw [hstep] at hu
    cases hp : parse_year_month_from_english_url v with
    | none =>
      have hred : (match parse_year_month_from_english_url v with
          | none => acc
          | some (y, _) => if min_year ≤ y then insertIfAbsent v acc else acc)
          = acc := by rw [hp]
      rw [hred] at hu
      exact ih acc hacc (fun w hw => hlinks w (List.mem_cons_of_mem _ hw)) u hu
    | some ym =>
      obtain ⟨y, m⟩ := ym
      have hred : (match parse_year_month_from_english_url v with
          | none => acc
          | some (y, _) => if min_year ≤ y then insertIfAbsent v acc else acc)
          = if min_year ≤ y then insertIfAbsent v acc else acc := by rw [hp]
      rw [hred] at hu
      by_cases hy : min_year ≤ y
      · rw [if_pos hy] at hu
        refine ih _ ?_ (fun w hw => hlinks w (List.mem_cons_of_mem _ hw)) u hu
        intro w hw
        rcases (insertIfAbsent_mem w v acc).mp hw with hw' | rfl
        · exact hacc w hw'
        · exact hlinks w (List.mem_cons_self _ _) y m hp hy
      · rw [if_neg hy] at hu
        exact ih acc hacc (fun w hw => hlinks w (List.mem_cons_of_mem _ hw)) u hu

theorem addKept_nodup (min_year : Nat) :
    ∀ (links acc : List Str), acc.Nodup → (addKept min_year acc links).Nodup := by
  intro links
  induction links with
  | nil =>
    intro acc hacc
    exact hacc
  | cons v t ih =>
    intro acc hacc
    have hstep : addKept min_year acc (v :: t)
        = addKept min_year
            (match parse_year_month_from_english_url v with
             | none => acc
             | some (y, _) => if min_year ≤ y then insertIfAbsent v acc else acc)
            t := rfl
    rw [hstep]
    apply ih
    cases hp : parse_year_month_from_english_url v with
    | none => exact hacc
    | some ym =>
      obtain ⟨y, m⟩ := ym
      show (if min_year ≤ y then insertIfAbsent v acc else acc).Nodup
      by_cases hy : min_year ≤ y
      · rw [if_pos hy]
        exact insertIfAbsent_nodup v acc hacc
      · rw [if_neg hy]
        exact hacc

theorem dropWhile_head?_false {α : Type} (p : α → Bool) :
    ∀ (l : List α) (c : α), (l.dropWhile p).head? = some c → p c = false := by
  intro l
  induction l with
  | nil =>
    intro c h
    simp [List.dropWhile] at h
  | cons x t ih =>
    intro c h
    rw [List.dropWhile_cons] at h
    by_cases hx : p x = true
    · rw [if_pos hx] at h
      exact ih c h
    · rw [if_neg hx] at h
      rw [List.head?_cons] at h
      injection h with h'
      subst h'
      cases hpx : p x
      · rfl
      · exact absurd hpx hx

/-- `rstrip("/")` never leaves a trailing slash. -/
theorem rstripSlash_getLast_ne (s : Str) (c : Char)
    (h : (rstripSlash s).getLast? = some c) : c ≠ '/' := by
  unfold rstripSlash at h
  rw [List.getLast?_reverse] at h
  have := dropWhile_head?_false _ s.reverse c h
  simpa using this

/-- Every extracted archive link is the slash-stripped resolution of some
anchor whose resolved URL matches the year/month/english pattern. -/
theorem extract_links_mem (html : Html) (u : Str)
    (hu : u ∈ extract_english_links_from_archive_page html) :
    ∃ a ∈ html.anchors,
      (matchArchivesEnglish (urljoin ARCHIVES_ROOT a.href)).isSome = true
      ∧ u = rstripSlash (urljoin ARCHIVES_ROOT a.href) := by
  unfold extract_english_links_from_archive_page at hu
  rw [List.mem_filterMap] at hu
  obtain ⟨a, ha, hfa⟩ := hu
  refine ⟨a, ha, ?_⟩
  split at hfa
  · rename_i hm
    injection hfa with h'
    exact ⟨hm, h'.symm⟩
  · exact Option.noConfusion hfa

theorem monthsLookup_range (s : Str) (v : Nat) (h : monthsLookup s = some v) :
    1 ≤ v ∧ v ≤ 12 := by
  unfold monthsLookup at h
  rw [Option.map_eq_some'] at h
  obtain ⟨p, hfind, hv⟩ := h
  have hmem := List.mem_of_find?_eq_some hfind
  subst hv
  fin_cases hmem <;> simp

theorem parse_ym_month_range (u : Str) (y m : Nat)
    (h : parse_year_month_from_english_url u = some (y, m)) :
    1 ≤ m ∧ m ≤ 12 := by
  unfold parse_year_month_from_english_url at h
  split at h
  · exact Option.noConfusion h
  · rename_i ys mo heq
    split at h
    · exact Option.noConfusion h
    · rename_i month hLook
      injection h with h'
      injection h' with h1 h2
      subst h2
      exact monthsLookup_range _ _ hLook

/-- Invariant carried by the discovery accumulator: the page parses with
year at least the cutoff, and carries no trailing slash. -/
def GoodPage (min_year : Nat) (u : Str) : Prop :=
  (∃ y m, parse_year_month_from_english_url u = some (y, m) ∧ min_year ≤ y)
  ∧ ∀ c, u.getLast? = some c → c ≠ '/'

theorem discoverLoop_good (env : ListingEnv) (min_year : Nat) :
    ∀ (pages : List Nat) (acc accF : List Str) (tr : List Nat),
      discoverLoop env min_year pages acc = .ok (accF, tr) →
      (∀ u ∈ acc, GoodPage min_year u) →
      ∀ u ∈ accF, GoodPage min_year u := by
  intro pages
  induction pages with
  | nil =>
    intro acc accF tr h hacc u hu
    simp only [discoverLoop] at h
    injection h with h'
    injection h' with h1 h2
    subst h1
    exact hacc u hu
  | cons p rest ih =>
    intro acc accF tr h hacc u hu
    simp only [discoverLoop] at h
    split at h
    · exact Except.noConfusion h
    · rename_i phtml hpf
      have haddgood : ∀ w ∈ addKept min_year acc
          (extract_english_links_from_archive_page phtml), GoodPage min_year w := by
        refine addKept_forall min_year _ acc hacc ?_
        intro w hw y m hp hy
        obtain ⟨a, -, -, hwr⟩ := extract_links_mem phtml w hw
        refine ⟨⟨y, m, hp, hy⟩, ?_⟩
        intro c hc
        rw [hwr] at hc
        exact rstripSlash_getLast_ne _ c hc
      split at h
      · injection h with h'
        injection h' with h1 h2
        subst h1
        exact hacc u hu
      · split at h
        · injection h with h'
          injection h' with h1 h2
          subst h1
          exact haddgood u hu
        · split at h
          · exact Except.noConfusion h
          · rename_i accF' tr' hrec
            injection h with h'
            injection h' with h1 h2
            subst h1
            exact ih _ _ _ hrec haddgood u hu

theorem discoverLoop_nodup (env : ListingEnv) (min_year : Nat) :
    ∀ (pages : List Nat) (acc accF : List Str) (tr : List Nat),
      discoverLoop env min_year pages acc = .ok (accF, tr) →
      acc.Nodup → accF.Nodup := by
  intro pages
  induction pages with
  | nil =>
    intro acc accF tr h hacc
    simp only [discoverLoop] at h
    injection h with h'
    injection h' with h1 h2
    subst h1
    exact hacc
  | cons p rest ih =>
    intro acc accF tr h hacc
    simp only [discoverLoop] at h
    split at h
    · exact Except.noConfusion h
    · rename_i phtml hpf
      split at h
      · injection h with h'
        injection h' with h1 h2
        subst h1
        exact hacc
      · split at h
        · injection h with h'
          injection h' with h1 h2
          subst h1
          exact addKept_nodup min_year _ acc hacc
        · split at h
          · exact Except.noConfusion h
          · rename_i accF' tr' hrec
            injection h with h'
            injection h' with h1 h2
            subst h1
            exact ih _ _ _ hrec (addKept_nodup min_year _ acc hacc)

theorem discoverLoop_trace_mem (env : ListingEnv) (min_year : Nat) :
    ∀ (pages : List Nat) (acc accF : List Str) (tr : List Nat),
      discoverLoop env min_year pages acc = .ok (accF, tr) →
      ∀ i ∈ tr, i ∈ pages := by
  intro pages
  induction pages with
  | nil =>
    intro acc accF tr h i hi
    simp only [discoverLoop] at h
    injection h with h'
    injection h' with h1 h2
    subst h2
    simp at hi
  | cons p rest ih =>
    intro acc accF tr h i hi
    simp only [discoverLoop] at h
    split at h
    · exact Except.noConfusion h
    · rename_i phtml hpf
      split at h
      · injection h with h'
        injection h' with h1 h2
        subst h2
        rw [List.mem_singleton] at hi
        subst hi
        exact List.mem_cons_self _ _
      · split at h
        · injection h with h'
          injection h' with h1 h2
          subst h2
          rw [List.mem_singleton] at hi
          subst hi
          exact List.mem_cons_self _ _
        · split at h
          · exact Except.noConfusion h
          · rename_i accF' tr' hrec
            injection h with h'
            injection h' with h1 h2
            subst h2
            rcases List.mem_cons.mp hi with rfl | hi'
            · exact List.mem_cons_self _ _
            · exact List.mem_cons_of_mem _ (ih _ _ _ hrec i hi')

/-- Once a stopping page has been processed, no later page index appears
in the fetch trace. -/
theorem discoverLoop_stop (env : ListingEnv) (min_year : Nat) :
    ∀ (pages : List Nat) (acc accF : List Str) (tr : List Nat),
      discoverLoop env min_year pages acc = .ok (accF, tr) →
      pages.Pairwise (· < ·) →
      ∀ (i : Nat) (html : Html), env.fetchListing i = some html →
      (extract_english_links_from_archive_page html = []
        ∨ (years_in_page (extract_english_links_from_archive_page html) ≠ []
          ∧ ∀ y ∈ years_in_page (extract_english_links_from_archive_page html),
              y < min_year)) →
      i ∈ tr → ∀ j ∈ tr, j ≤ i := by
  intro pages
  induction pages with
  | nil =>
    intro acc accF tr h _ i html _ _ hi
    simp only [discoverLoop] at h
    injection h with h'
    injection h' with h1 h2
    subst h2
    simp at hi
  | cons p rest ih =>
    intro acc accF tr h hpw i html hf hstop hi
    simp only [discoverLoop] at h
    split at h
    · exact Except.noConfusion h
    · rename_i phtml hpf
      split at h
      · injection h with h'
        injection h' with h1 h2
        subst h2
        rw [List.mem_singleton] at hi
        subst hi
        intro j hj
        rw [List.mem_singleton] at hj
        subst hj
        exact Nat.le_refl _
      · rename_i hl
        split at h
        · injection h with h'
          injection h' with h1 h2
          subst h2
          rw [List.mem_singleton] at hi
          subst hi
          intro j hj
          rw [List.mem_singleton] at hj
          subst hj
          exact Nat.le_refl _
        · rename_i hcond
          split at h
          · exact Except.noConfusion h
          · rename_i accF' tr' hrec
            injection h with h'
            injection h' with h1 h2
            subst h1
            subst h2
            rcases List.mem_cons.mp hi with rfl | hi'
            · have hsame : phtml = html := by
                rw [hpf] at hf
                exact Option.some.inj hf
              subst hsame
              rcases hstop with hempty | ⟨hne, hall⟩
              · exact absurd hempty hl
              · exact absurd ((pageStopBool_iff min_year phtml).mpr ⟨hne, hall⟩) hcond
            · intro j hj
              rcases List.mem_cons.mp hj with rfl | hj'
              · have hmem := discoverLoop_trace_mem env min_year rest _ _ _ hrec i hi'
                have := (List.pairwise_cons.mp hpw).1 i hmem
                omega
              · exact ih _ _ _ hrec (List.pairwise_cons.mp hpw).2 i html hf hstop hi' j hj'

/-- Dissect a successful `discover_english_pages` run into its loop call. -/
theorem discover_ok_elim (env : ListingEnv) (min_year : Nat)
    (max_pages : Option Int) (pages : List Str) (tr : List Nat)
    (h : discover_english_pages env min_year max_pages = .ok (pages, tr)) :
    ∃ (n : Nat) (pages0 : List Str),
      discoverLoop env min_year (List.range n) [] = .ok (pages0, tr)
      ∧ pages = List.insertionSort DescRel pages0 := by
  unfold discover_english_pages at h
  split at h
  · exact Except.noConfusion h
  · rename_i firstHtml h0
    split at h
    · exact Except.noConfusion h
    · rename_i pages0 tr0 hrec
      injection h with h'
      injection h' with h1 h2
      subst h2
      exact ⟨_, pages0, hrec, h1.symm⟩

theorem ymLeB_trans (a b c : Nat × Nat) :
    ymLeB a b = true → ymLeB b c = true → ymLeB a c = true := by
  simp only [ymLeB, Bool.or_eq_true, Bool.and_eq_true, decide_eq_true_eq]
  omega

theorem ymLeB_total (p q : Nat × Nat) : (ymLeB p q || ymLeB q p) = true := by
  simp only [ymLeB, Bool.or_eq_true, Bool.and_eq_true, decide_eq_true_eq]
  omega

instance : IsTotal Str DescRel :=
  ⟨fun a b => Bool.or_eq_true _ _ |>.mp (ymLeB_total (ymKey b) (ymKey a)) |>.imp id id⟩

instance : IsTrans Str DescRel :=
  ⟨fun a b c hab hbc => ymLeB_trans (ymKey c) (ymKey b) (ymKey a) hbc hab⟩

/-! ## Claims C5 and C6: archive discovery -/

/-- **C5 (amended).** Archive discovery stops iterating page indices as
soon as either a fetched listing page yields no matching english-issue
links, or the current page has at least one parsable link and every
parsable link's year is below the minimum-year cutoff: whenever the fetch
trace contains such a stopping page `i`, no later listing page occurs in
the trace.  (Amendment: the original claim's second condition did not
require a parsable link to exist; the code keeps going when a page's
matching links all have unrecognised month names.) -/
theorem discovery_stops (env : ListingEnv) (min_year : Nat)
    (max_pages : Option Int) (pages : List Str) (tr : List Nat) (i : Nat)
    (html : Html)
    (h : discover_english_pages env min_year max_pages = .ok (pages, tr))
    (hf : env.fetchListing i = some html)
    (hstop : extract_english_links_from_archive_page html = []
      ∨ (years_in_page (extract_english_links_from_archive_page html) ≠ []
        ∧ ∀ y ∈ years_in_page (extract_english_links_from_archive_page html),
            y < min_year))
    (hi : i ∈ tr) : ∀ j ∈ tr, j ≤ i := by
  obtain ⟨n, pages0, hrec, -⟩ := discover_ok_elim env min_year max_pages pages tr h
  exact discoverLoop_stop env min_year (List.range n) [] pages0 tr hrec
    (List.pairwise_lt_range n) i html hf hstop hi

/-- First listing page of the C5 counterexample environment: pagination
advertises `?page=1`, and the single matching issue link has an
unrecognised month name (`foo`), so it yields no parsable year. -/
def cexListingHtml0 : Html :=
  ⟨[⟨str "x", str "?page=1"⟩, ⟨[], str "/archives/2020/foo/english"⟩], none⟩

/-- Second (empty) listing page of the C5 counterexample environment. -/
def cexListingHtml1 : Html := ⟨[], none⟩

/-- C5 counterexample environment. -/
def cexListingEnv : ListingEnv :=
  ⟨fun i => if i = 0 then some cexListingHtml0
    else if i = 1 then some cexListingHtml1 else none⟩

/-- **C5, counterexample to the claim as stated.**  On page 0 of this
archive, every parsable link's year is (vacuously) below the cutoff 2021 —
the page's one matching link has month name `foo`, which parses to no
year — yet discovery does not stop there: the fetch trace is `[0, 1]`,
so listing page 1 is fetched after the condition held on page 0. -/
theorem discovery_stops_counterexample :
    extract_english_links_from_archive_page cexListingHtml0 ≠ []
    ∧ years_in_page (extract_english_links_from_archive_page cexListingHtml0) = []
    ∧ (∀ y ∈ years_in_page (extract_english_links_from_archive_page cexListingHtml0),
        y < 2021)
    ∧ cexListingEnv.fetchListing 0 = some cexListingHtml0
    ∧ discover_english_pages cexListingEnv 2021 none = .ok ([], [0, 1])
    ∧ ¬(∀ j ∈ [0, 1], j ≤ 0) := by
  refine ⟨by decide, by decide, ?_, by decide, by decide, by decide⟩
  intro y hy
  rw [show years_in_page (extract_english_links_from_archive_page cexListingHtml0)
    = ([] : List Nat) from by decide] at hy
  exact absurd hy (List.not_mem_nil y)

/-- Single listing page of the C5 witness environment: one matching link
whose year 2000 is below the cutoff 2001. -/
def wStopHtml0 : Html := ⟨[⟨[], str "/archives/2000/january/english"⟩], none⟩

/-- C5 witness environment. -/
def wStopEnv : ListingEnv :=
  ⟨fun i => if i = 0 then some wStopHtml0 else none⟩

/-- Witness for **C5** on a concrete archive whose first page is entirely
below the cutoff: the fetch trace is `[0]` and indeed stops at page 0. -/
theorem discovery_stops_witness :
    discover_english_pages wStopEnv 2001 none = .ok ([], [0])
    ∧ (years_in_page (extract_english_links_from_archive_page wStopHtml0) ≠ []
      ∧ ∀ y ∈ years_in_page (extract_english_links_from_archive_page wStopHtml0),
          y < 2001)
    ∧ (∀ j ∈ [0], j ≤ 0) :=
  ⟨by decide, by decide,
    discovery_stops wStopEnv 2001 none [] [0] 0 wStopHtml0 (by decide) (by decide)
      (Or.inr (by decide)) (by decide)⟩

/-- **C6.** Any successful discovery run returns a deduplicated list in
which every identifier parses against the `/archives/YYYY/<month>/english`
shape with a recognised month mapped to 1–12 and year at least the
cutoff, has no trailing slash, and the list is sorted descending by
`(year, month)`. -/
theorem discovery_output_spec (env : ListingEnv) (min_year : Nat)
    (max_pages : Option Int) (pages : List Str) (tr : List Nat)
    (h : discover_english_pages env min_year max_pages = .ok (pages, tr)) :
    pages.Nodup
    ∧ (∀ u ∈ pages, ∃ y m, parse_year_month_from_english_url u = some (y, m)
        ∧ min_year ≤ y ∧ 1 ≤ m ∧ m ≤ 12
        ∧ ∀ c, u.getLast? = some c → c ≠ '/')
    ∧ pages.Pairwise (fun a b => descLe a b = true) := by
  obtain ⟨n, pages0, hrec, hsort⟩ := discover_ok_elim env min_year max_pages pages tr h
  subst hsort
  refine ⟨?_, ?_, ?_⟩
  · exact (List.perm_insertionSort DescRel pages0).nodup_iff.mpr
      (discoverLoop_nodup env min_year (List.range n) [] pages0 tr hrec List.nodup_nil)
  · intro u hu
    rw [List.mem_insertionSort] at hu
    have hg := discoverLoop_good env min_year (List.range n) [] pages0 tr hrec
      (by intro w hw; simp at hw) u hu
    obtain ⟨⟨y, m, hp, hy⟩, hsl⟩ := hg
    have hr := parse_ym_month_range u y m hp
    exact ⟨y, m, hp, hy, hr.1, hr.2, hsl⟩
  · exact List.sorted_insertionSort DescRel pages0

/-- Single listing page of the C6 witness environment: two proper issue
links, for January 2020 (relative href, with trailing slash) and
March 2021 (absolute href). -/
def wSortHtml0 : Html :=
  ⟨[⟨str "a", str "/resources/process-safety-beacon/archives/2020/january/english/"⟩,
    ⟨str "b",
     str "https://ccps.aiche.org/resources/process-safety-beacon/archives/2021/march/english"⟩],
   none⟩

/-- C6 witness environment. -/
def wSortEnv : ListingEnv :=
  ⟨fun i => if i = 0 then some wSortHtml0 else none⟩

/-- Witness for **C6** on a concrete two-issue archive: discovery returns
March 2021 before January 2020, both normalized. -/
theorem discovery_output_spec_witness :
    discover_english_pages wSortEnv 2001 none
      = .ok ([str "https://ccps.aiche.org/resources/process-safety-beacon/archives/2021/march/english",
              str "https://ccps.aiche.org/resources/process-safety-beacon/archives/2020/january/english"],
             [0])
    ∧ ([str "https://ccps.aiche.org/resources/process-safety-beacon/archives/2021/march/english",
        str "https://ccps.aiche.org/resources/process-safety-beacon/archives/2020/january/english"].Nodup
      ∧ (∀ u ∈ [str "https://ccps.aiche.org/resources/process-safety-beacon/archives/2021/march/english",
                str "https://ccps.aiche.org/resources/process-safety-beacon/archives/2020/january/english"],
          ∃ y m, parse_year_month_from_english_url u = some (y, m)
          ∧ 2001 ≤ y ∧ 1 ≤ m ∧ m ≤ 12
          ∧ ∀ c, u.getLast? = some c → c ≠ '/')
      ∧ [str "https://ccps.aiche.org/resources/process-safety-beacon/archives/2021/march/english",
         str "https://ccps.aiche.org/resources/process-safety-beacon/archives/2020/january/english"].Pairwise
          (fun a b => descLe a b = true)) :=
  ⟨by decide,
    discovery_output_spec wSortEnv 2001 none _ [0] (by decide)⟩

/-! ## Issue-page parsing: `extract_title…` and `extract_pdf_url…` -/

/-- The suffix rewrite `re.sub(r"\s*-\s*English\s*$", "", title, re.IGNORECASE)`:
remove a trailing `- English` (any case, with surrounding whitespace). -/
def stripEnglishSuffixOnce (s : Str) : Str :=
  let r := s.reverse.dropWhile Char.isWhitespace
  if toLowerStr (r.take 7) = str "hsilgne" then
    let r2 := (r.drop 7).dropWhile Char.isWhitespace
    match r2 with
    | '-' :: r3 => (r3.dropWhile Char.isWhitespace).reverse
    | _ => s
  else s

/-- `backend/collecter_past.py`, `extract_title_from_english_page`.
The `h1` field models `soup.find("h1")`'s extracted text. -/
def extract_title_from_english_page (html : Html) : Str :=
  match html.h1 with
  | none => trimStr (stripEnglishSuffixOnce [])
  | some t => trimStr (stripEnglishSuffixOnce t)

/-- Anchor text test of heuristic 1 (backend):
`"download" in txt and "click" in txt` on the stripped, lowered text. -/
def clickDownloadText (a : Anchor) : Bool :=
  containsSub (toLowerStr (trimStr a.text)) (str "download")
    && containsSub (toLowerStr (trimStr a.text)) (str "click")

/-- Anchor href test of heuristic 2 (backend):
`href.lower().endswith(".pdf") or ".pdf" in href.lower()`. -/
def pdfAnchorB (a : Anchor) : Bool :=
  endsWithStr (toLowerStr a.href) (str ".pdf")
    || containsSub (toLowerStr a.href) (str ".pdf")

/-- `backend/collecter_past.py`, `extract_pdf_url_from_english_page`. -/
def extract_pdf_url_from_english_page (html : Html) (base_url : Str) : Str :=
  match html.anchors.find? clickDownloadText with
  | some a => urljoin (base_url ++ str "/") a.href
  | none =>
    match html.anchors.filterMap (fun a =>
        if pdfAnchorB a then some (urljoin (base_url ++ str "/") a.href)
        else none) with
    | [] => []
    | c :: _ => c

/-- Anchor text test of heuristic 1 (tools variant):
`"click here to download" in text or ("download" in text and "click" in text)`. -/
def clickDownloadText2 (a : Anchor) : Bool :=
  containsSub (toLowerStr (trimStr a.text)) (str "click here to download")
    || (containsSub (toLowerStr (trimStr a.text)) (str "download")
        && containsSub (toLowerStr (trimStr a.text)) (str "click"))

/-- The tools variant's `.pdf` candidate list (`href.lower().endswith(".pdf")`
only), resolved against the page URL. -/
def pdfCands (html : Html) (english_page_url : Str) : List Str :=
  html.anchors.filterMap (fun a =>
    if endsWithStr (toLowerStr a.href) (str ".pdf")
    then some (urljoin (english_page_url ++ str "/") a.href)
    else none)

/-- Candidate preference test: `"beacon" in lu and "english" in lu`. -/
def beaconEnglishB (u : Str) : Bool :=
  containsSub (toLowerStr u) (str "beacon")
    && containsSub (toLowerStr u) (str "english")

/-- `tools/collecter_past.py`, `extract_pdf_url_from_english_page` (richer
variant).  The python function fetches the page itself; here the fetched
HTML is an argument (a failed fetch yields a page with no anchors). -/
def tools_extract_pdf_url_from_english_page (html : Html)
    (english_page_url : Str) : Option Str :=
  match html.anchors.find? clickDownloadText2 with
  | some a => some (urljoin (english_page_url ++ str "/") a.href)
  | none =>
    match (pdfCands html english_page_url).find? beaconEnglishB with
    | some u => some u
    | none => (pdfCands html english_page_url).head?

/-- The head of an `if`-guarded `filterMap` is the image of `find?`. -/
theorem head?_filterMap_ite {α β : Type} (p : α → Bool) (f : α → β) :
    ∀ l : List α,
      (l.filterMap (fun a => if p a then some (f a) else none)).head?
        = (l.find? p).map f := by
  intro l
  induction l with
  | nil => rfl
  | cons x t ih =>
    cases hp : p x <;>
      simp [List.filterMap_cons, List.find?_cons, hp, ih]

/-- **C3.** The PDF-URL extractors apply their heuristics in order with
first match winning: (1) if some anchor's text contains both "click" and
"download" (case-insensitively), the first such anchor's href, resolved
against the page URL, is returned; (2) otherwise the first anchor whose
href ends with or contains ".pdf" is returned (backend variant); (3) in
the richer tools variant, with no click/download anchor, a `.pdf`
candidate containing both "beacon" and "english" is preferred over the
first candidate. -/
theorem pdf_extractor_heuristics
    (hb : Html) (baseB : Str) (aCk : Anchor)
    (hp : Html) (baseP : Str) (aPdf : Anchor)
    (ht : Html) (baseT : Str) (u : Str)
    (h1 : hb.anchors.find? clickDownloadText = some aCk)
    (h2 : hp.anchors.find? clickDownloadText = none)
    (h3 : hp.anchors.find? pdfAnchorB = some aPdf)
    (h4 : ht.anchors.find? clickDownloadText2 = none)
    (h5 : (pdfCands ht baseT).find? beaconEnglishB = some u) :
    extract_pdf_url_from_english_page hb baseB = urljoin (baseB ++ str "/") aCk.href
    ∧ extract_pdf_url_from_english_page hp baseP = urljoin (baseP ++ str "/") aPdf.href
    ∧ tools_extract_pdf_url_from_english_page ht baseT = some u := by
  refine ⟨?_, ?_, ?_⟩
  · unfold extract_pdf_url_from_english_page
    rw [h1]
  · unfold extract_pdf_url_from_english_page
    rw [h2]
    have hh := head?_filterMap_ite pdfAnchorB
      (fun a => urljoin (baseP ++ str "/") a.href) hp.anchors
    rw [h3] at hh
    cases hc : hp.anchors.filterMap (fun a =>
        if pdfAnchorB a then some (urljoin (baseP ++ str "/") a.href)
        else none) with
    | nil =>
      rw [hc] at hh
      exact Option.noConfusion hh
    | cons c cs =>
      rw [hc] at hh
      rw [List.head?_cons] at hh
      injection hh with hh'
  · unfold tools_extract_pdf_url_from_english_page
    rw [h4, h5]

/-- Witness data for **C3**: a page whose anchor says
"Click here to Download". -/
def wCkAnchor : Anchor := ⟨str "Click here to Download", str "x.pdf"⟩

def wCkHtml : Html := ⟨[wCkAnchor], none⟩

/-- Witness data for **C3**: a page with a plain `.pdf` anchor only. -/
def wPdfAnchor : Anchor := ⟨str "t", str "doc.pdf"⟩

def wPdfHtml : Html := ⟨[wPdfAnchor], none⟩

/-- Witness data for **C3**: two `.pdf` anchors, the second of which
contains "beacon" and "english". -/
def wToolsHtml : Html :=
  ⟨[⟨[], str "other.pdf"⟩, ⟨[], str "Beacon-English.pdf"⟩], none⟩

/-- Witness for **C3** at the three concrete pages above. -/
theorem pdf_extractor_heuristics_witness :
    wCkHtml.anchors.find? clickDownloadText = some wCkAnchor
    ∧ (extract_pdf_url_from_english_page wCkHtml (str "https://h/p")
        = urljoin (str "https://h/p" ++ str "/") wCkAnchor.href
      ∧ extract_pdf_url_from_english_page wPdfHtml (str "https://h/p")
        = urljoin (str "https://h/p" ++ str "/") wPdfAnchor.href
      ∧ tools_extract_pdf_url_from_english_page wToolsHtml (str "https://h/p")
        = some (urljoin (str "https://h/p" ++ str "/") (str "Beacon-English.pdf"))) :=
  ⟨by decide,
    pdf_extractor_heuristics wCkHtml (str "https://h/p") wCkAnchor
      wPdfHtml (str "https://h/p") wPdfAnchor
      wToolsHtml (str "https://h/p") _
      (by decide) (by decide) (by decide) (by decide) (by decide)⟩

/-! ## Claim C7: the PDF retrievers -/

/-- An HTTP response: status code and body chunks (as `iter_content`
delivers them; `r.content` is their concatenation). -/
structure HttpResponse where
  status : Nat
  chunks : List (List Nat)
deriving DecidableEq

/-- `tools/collecter_past.py`, `download_file`: on a non-200 status log and
return `false` without writing; on 200 write the non-empty chunks and
return `true`.  The second component is the file content written. -/
def download_file (r : HttpResponse) : Bool × Option (List Nat) :=
  if r.status ≠ 200 then (false, none)
  else (true, some ((r.chunks.filter (fun c => !c.isEmpty)).flatten))

/-- `backend/collecter_past.py`, `download_pdf`: `raise_for_status()`
(raises for any 4xx/5xx status), then write `r.content`. -/
def download_pdf (r : HttpResponse) : Except Unit (List Nat) :=
  if 400 ≤ r.status ∧ r.status < 600 then .error ()
  else .ok r.chunks.flatten

/-- **C7, counterexample to the claim as stated.**  The claim says every
retriever turns a non-200 response into a `false` return with no
exception; but the backend retriever `download_pdf` raises
(`raise_for_status`) on a 404 response instead of returning false. -/
theorem download_nonsuccess_counterexample :
    download_pdf ⟨404, []⟩ = .error () := rfl

/-- **C7 (amended).**  The tools retriever `download_file` returns false
and writes nothing for every non-200 status, and writes the body and
returns true exactly on status 200; the backend retriever `download_pdf`
instead raises an exception (caught by its harvest loop as a skip) for
4xx/5xx statuses and writes the body for any other status. -/
theorem download_semantics (r r' : HttpResponse)
    (h200 : r.status ≠ 200) (herr : 400 ≤ r'.status ∧ r'.status < 600) :
    download_file r = (false, none)
    ∧ (∀ sr : HttpResponse, sr.status = 200 →
        download_file sr = (true, some ((sr.chunks.filter (fun c => !c.isEmpty)).flatten)))
    ∧ download_pdf r' = .error ()
    ∧ (∀ sr : HttpResponse, ¬(400 ≤ sr.status ∧ sr.status < 600) →
        download_pdf sr = .ok sr.chunks.flatten) := by
  refine ⟨?_, ?_, ?_, ?_⟩
  · unfold download_file
    rw [if_pos h200]
  · intro sr hsr
    unfold download_file
    rw [if_neg (by omega)]
  · unfold download_pdf
    rw [if_pos herr]
  · intro sr hsr
    unfold download_pdf
    rw [if_neg hsr]

/-- Witness for **C7** at a 204 response and a 500 response. -/
theorem download_semantics_witness :
    (204 ≠ 200)
    ∧ (400 ≤ 500 ∧ 500 < 600)
    ∧ download_file ⟨204, [[1, 2]]⟩ = (false, none)
    ∧ download_pdf ⟨500, []⟩ = .error () := by
  refine ⟨by decide, by decide, ?_, ?_⟩
  · exact (download_semantics ⟨204, [[1, 2]]⟩ ⟨500, []⟩ (by decide) (by decide)).1
  · exact (download_semantics ⟨204, [[1, 2]]⟩ ⟨500, []⟩ (by decide) (by decide)).2.2.1

/-! ## Claim C10: `tools/prep_ccps_supabase_csv.py`, `clean_text`

```python
s = s.replace("\r\n", "\n").replace("\r", "\n")
s = s.replace("\x00", "")
s = re.sub(r"\\u0000", "", s, flags=re.IGNORECASE)
s = CONTROL_RE.sub(" ", s)           # CONTROL_RE = [\x00-\x08\x0b\x0c\x0e-\x1f]
```
`str.replace` and `re.sub` scan left to right over non-overlapping
matches and do not rescan replaced text; both are modelled by a
fuel-indexed structural recursion (fuel = input length suffices, since
each step consumes at least one character).
-/

/-- Structural prefix test (python slice comparison). -/
def isPrefixList : Str → Str → Bool
  | [], _ => true
  | _ :: _, [] => false
  | a :: as, b :: bs => a = b && isPrefixList as bs

/-- Python `str.replace` for the non-empty pattern `p :: ps`, replacement
`rep`, left-to-right over non-overlapping matches. -/
def replaceListAux (p : Char) (ps rep : Str) : Nat → Str → Str
  | 0, _ => []
  | _, [] => []
  | fuel + 1, c :: rest =>
    if isPrefixList (p :: ps) (c :: rest) then
      rep ++ replaceListAux p ps rep fuel (rest.drop ps.length)
    else c :: replaceListAux p ps rep fuel rest

/-- Python `s.replace(p :: ps, rep)`. -/
def replaceList (p : Char) (ps rep s : Str) : Str :=
  replaceListAux p ps rep s.length s

/-- A literal `\u0000` escape (the `u` case-insensitively, per
`re.IGNORECASE`; digits and backslash have no case). -/
def matchesU0000 (s : Str) : Bool :=
  isPrefixList (str "\\u0000") s || isPrefixList (str "\\U0000") s

/-- `re.sub(r"\\u0000", "", s, flags=re.IGNORECASE)`: remove every
left-to-right non-overlapping match, not rescanning removed spans. -/
def removeU0000Aux : Nat → Str → Str
  | 0, _ => []
  | _, [] => []
  | fuel + 1, c :: rest =>
    if matchesU0000 (c :: rest) then removeU0000Aux fuel (rest.drop 5)
    else c :: removeU0000Aux fuel rest

def removeU0000 (s : Str) : Str := removeU0000Aux s.length s

/-- Membership in `CONTROL_RE = [\x00-\x08\x0b\x0c\x0e-\x1f]`. -/
def isCtrlChar (c : Char) : Bool :=
  c.toNat ≤ 0x08 || c.toNat = 0x0b || c.toNat = 0x0c
    || (0x0e ≤ c.toNat && c.toNat ≤ 0x1f)

/-- `s.replace("\r\n", "\n").replace("\r", "\n")`. -/
def normNewlines (s : Str) : Str :=
  replaceList '\r' [] ['\n'] (replaceList '\r' ['\n'] ['\n'] s)

/-- `s.replace("\x00", "")`. -/
def stripNul (s : Str) : Str := replaceList '\x00' [] [] s

/-- `CONTROL_RE.sub(" ", s)`. -/
def ctrlToSpace (s : Str) : Str :=
  s.map (fun c => if isCtrlChar c then ' ' else c)

/-- `tools/prep_ccps_supabase_csv.py`, `clean_text` (the `None` guard and
`str()` coercion are outside the string model). -/
def clean_text (s : Str) : Str :=
  ctrlToSpace (removeU0000 (stripNul (normNewlines s)))

/-- A successful structural prefix test decomposes the list. -/
theorem isPrefixList_append :
    ∀ (ps l : Str), isPrefixList ps l = true → l = ps ++ l.drop ps.length := by
  intro ps
  induction ps with
  | nil =>
    intro l _
    simp
  | cons a as ih =>
    intro l h
    cases l with
    | nil => exact absurd h (by simp [isPrefixList])
    | cons b bs =>
      rw [isPrefixList, Bool.and_eq_true, decide_eq_true_eq] at h
      obtain ⟨rfl, h2⟩ := h
      have := ih bs h2
      simp only [List.length_cons, List.cons_append, List.drop_succ_cons]
      exact congrArg (a :: ·) this

/-- A character occurring neither in the pattern nor in the replacement
keeps its occurrence count under `str.replace`. -/
theorem replaceListAux_count (p : Char) (ps rep : Str) (c : Char)
    (hc1 : c ≠ p) (hc2 : c ∉ ps) (hc3 : c ∉ rep) :
    ∀ (fuel : Nat) (l : Str), l.length ≤ fuel →
      (replaceListAux p ps rep fuel l).count c = l.count c := by
  intro fuel
  induction fuel with
  | zero =>
    intro l hl
    have : l = [] := List.length_eq_zero.mp (Nat.le_zero.mp hl)
    subst this
    rfl
  | succ fuel ih =>
    intro l hl
    cases l with
    | nil => rfl
    | cons x rest =>
      rw [replaceListAux]
      by_cases hm : isPrefixList (p :: ps) (x :: rest) = true
      · rw [if_pos hm]
        have hdec := isPrefixList_append (p :: ps) (x :: rest) hm
        rw [List.count_append]
        have hlen : (rest.drop ps.length).length ≤ fuel := by
          simp only [List.length_drop]
          simp only [List.length_cons] at hl
          omega
        rw [ih (rest.drop ps.length) hlen]
        have hcount0 : (rep : Str).count c = 0 :=
          List.count_eq_zero.mpr hc3
        have hdrop : (x :: rest).drop (p :: ps).length = rest.drop ps.length := by
          simp only [List.length_cons, List.drop_succ_cons]
        rw [hdrop] at hdec
        rw [hcount0]
        conv_rhs => rw [hdec]
        rw [List.count_append]
        have hpat0 : ((p :: ps) : Str).count c = 0 := by
          apply List.count_eq_zero.mpr
          intro hmem
          rcases List.mem_cons.mp hmem with rfl | hmem'
          · exact hc1 rfl
          · exact hc2 hmem'
        rw [hpat0]
      · rw [if_neg hm]
        have hlen : rest.length ≤ fuel := by
          simp only [List.length_cons] at hl
          omega
        rw [List.count_cons, List.count_cons, ih rest hlen]

/-- Single-character replacement is a pointwise map. -/
theorem replaceListAux_single_map (p q : Char) :
    ∀ (fuel : Nat) (l : Str), l.length ≤ fuel →
      replaceListAux p [] [q] fuel l
        = l.map (fun c => if c = p then q else c) := by
  intro fuel
  induction fuel with
  | zero =>
    intro l hl
    have : l = [] := List.length_eq_zero.mp (Nat.le_zero.mp hl)
    subst this
    rfl
  | succ fuel ih =>
    intro l hl
    cases l with
    | nil => rfl
    | cons x rest =>
      rw [replaceListAux]
      have hlen : rest.length ≤ fuel := by
        simp only [List.length_cons] at hl
        omega
      have hval : isPrefixList (p :: ([] : Str)) (x :: rest) = decide (p = x) := by
        rw [isPrefixList, isPrefixList, Bool.and_true]
      by_cases hx : x = p
      · rw [if_pos (by rw [hval]; exact decide_eq_true hx.symm)]
        simp only [List.length_nil, List.drop_zero, List.singleton_append]
        rw [List.map_cons, if_pos hx]
        exact congrArg (q :: ·) (ih rest hlen)
      · rw [if_neg (by rw [hval]; exact fun hc => hx (of_decide_eq_true hc).symm)]
        rw [List.map_cons, if_neg hx]
        exact congrArg (x :: ·) (ih rest hlen)

/-- The CR→LF map produces no `'\r'`. -/
theorem count_map_cr (l : Str) :
    (l.map (fun c => if c = '\r' then '\n' else c)).count '\r' = 0 := by
  induction l with
  | nil => rfl
  | cons x rest ih =>
    rw [List.map_cons, List.count_cons, ih]
    by_cases hx : x = '\r'
    · rw [if_pos hx]
      decide
    · rw [if_neg hx]
      simp [hx]

/-- The CR→LF map preserves counts of characters other than CR and LF. -/
theorem count_map_cr_other (c : Char) (hc1 : c ≠ '\r') (hc2 : c ≠ '\n') (l : Str) :
    (l.map (fun c => if c = '\r' then '\n' else c)).count c = l.count c := by
  induction l with
  | nil => rfl
  | cons x rest ih =>
    rw [List.map_cons, List.count_cons, List.count_cons, ih]
    by_cases hx : x = '\r'
    · subst hx
      rw [if_pos rfl]
      simp [hc1.symm, hc2.symm]
    · rw [if_neg hx]

/-- A character occurring neither in `\u0000` nor `\U0000` keeps its
count under the escape-removal pass. -/
theorem removeU0000Aux_count (c : Char)
    (hc1 : c ∉ str "\\u0000") (hc2 : c ∉ str "\\U0000") :
    ∀ (fuel : Nat) (l : Str), l.length ≤ fuel →
      (removeU0000Aux fuel l).count c = l.count c := by
  intro fuel
  induction fuel with
  | zero =>
    intro l hl
    have : l = [] := List.length_eq_zero.mp (Nat.le_zero.mp hl)
    subst this
    rfl
  | succ fuel ih =>
    intro l hl
    cases l with
    | nil => rfl
    | cons x rest =>
      rw [removeU0000Aux]
      by_cases hm : matchesU0000 (x :: rest) = true
      · rw [if_pos hm]
        rw [matchesU0000, Bool.or_eq_true] at hm
        have hlen : (rest.drop 5).length ≤ fuel := by
          simp only [List.length_drop]
          simp only [List.length_cons] at hl
          omega
        rw [ih (rest.drop 5) hlen]
        rcases hm with hm | hm
        · have hdec := isPrefixList_append _ _ hm
          conv_rhs => rw [hdec]
          rw [List.count_append, List.count_eq_zero.mpr hc1]
          have : (x :: rest).drop (str "\\u0000").length = rest.drop 5 := rfl
          rw [this]
          omega
        · have hdec := isPrefixList_append _ _ hm
          conv_rhs => rw [hdec]
          rw [List.count_append, List.count_eq_zero.mpr hc2]
          have : (x :: rest).drop (str "\\U0000").length = rest.drop 5 := rfl
          rw [this]
          omega
      · rw [if_neg hm]
        have hlen : rest.length ≤ fuel := by
          simp only [List.length_cons] at hl
          omega
        rw [List.count_cons, List.count_cons, ih rest hlen]

/-- The control-character pass preserves counts of characters that are
neither control characters nor the space it writes. -/
theorem count_ctrlToSpace (c : Char) (hc1 : isCtrlChar c = false)
    (hc2 : c ≠ ' ') (l : Str) :
    (ctrlToSpace l).count c = l.count c := by
  unfold ctrlToSpace
  induction l with
  | nil => rfl
  | cons x rest ih =>
    rw [List.map_cons, List.count_cons, List.count_cons, ih]
    by_cases hx : isCtrlChar x = true
    · rw [if_pos hx]
      have hxc : ¬(x = c) := by
        intro h
        subst h
        rw [hx] at hc1
        exact Bool.noConfusion hc1
      simp [hc2.symm, hxc]
    · rw [if_neg hx]

/-- **C10, counterexample to the claim as stated.**  On the input
`\u0\u0000000`, removing the inner escape concatenates the surrounding
text into a fresh `\u0000`, so the cleaned output *does* contain the
literal escape sequence. -/
theorem clean_text_counterexample :
    clean_text (str "\\u0\\u0000000") = str "\\u0000"
    ∧ containsSub (clean_text (str "\\u0\\u0000000")) (str "\\u0000") = true := by
  exact ⟨by decide, by decide⟩

/-- **C10 (amended).**  For every input string, `clean_text` returns a
string with no control character of `[\x00-\x08\x0b\x0c\x0e-\x1f]` (in
particular no NUL) and no carriage return; the number of `'\n'` is
exactly that of the CRLF/CR-normalised input and the number of `'\t'` is
preserved from the input.  (The `\u0000`-escape pass removes each
left-to-right match but may concatenate surrounding text into a new
occurrence, so absence of the literal escape is not guaranteed — see the
counterexample.) -/
theorem clean_text_spec (s : Str) :
    (∀ c ∈ clean_text s, isCtrlChar c = false)
    ∧ '\x00' ∉ clean_text s
    ∧ '\r' ∉ clean_text s
    ∧ (clean_text s).count '\n' = (normNewlines s).count '\n'
    ∧ (clean_text s).count '\t' = s.count '\t' := by
  have hmain : ∀ c ∈ clean_text s, isCtrlChar c = false := by
    intro c hc
    unfold clean_text ctrlToSpace at hc
    rw [List.mem_map] at hc
    obtain ⟨x, -, hfx⟩ := hc
    by_cases hx : isCtrlChar x = true
    · rw [if_pos hx] at hfx
      rw [← hfx]
      decide
    · rw [if_neg hx] at hfx
      rw [← hfx]
      exact Bool.not_eq_true _ |>.mp hx
  have hcount : ∀ c : Char, isCtrlChar c = false → c ≠ ' ' → c ≠ '\x00' →
      c ∉ str "\\u0000" → c ∉ str "\\U0000" →
      (clean_text s).count c = (normNewlines s).count c := by
    intro c h1 h2 h3 h4 h5
    unfold clean_text
    rw [count_ctrlToSpace c h1 h2]
    unfold removeU0000
    rw [removeU0000Aux_count c h4 h5 _ _ (Nat.le_refl _)]
    unfold stripNul replaceList
    rw [replaceListAux_count '\x00' [] [] c h3 (by simp) (by simp) _ _ (Nat.le_refl _)]
  refine ⟨hmain, ?_, ?_, ?_, ?_⟩
  · intro hmem
    have := hmain _ hmem
    exact Bool.noConfusion this
  · intro hmem
    have h0 : (clean_text s).count '\r' = 0 := by
      rw [hcount '\r' (by decide) (by decide) (by decide) (by decide) (by decide)]
      unfold normNewlines replaceList
      rw [replaceListAux_single_map '\r' '\n' _ _ (Nat.le_refl _)]
      exact count_map_cr _
    rw [List.count_eq_zero] at h0
    exact h0 hmem
  · exact hcount '\n' (by decide) (by decide) (by decide) (by decide) (by decide)
  · rw [hcount '\t' (by decide) (by decide) (by decide) (by decide) (by decide)]
    unfold normNewlines replaceList
    rw [replaceListAux_single_map '\r' '\n' _ _ (Nat.le_refl _)]
    rw [count_map_cr_other '\t' (by decide) (by decide)]
    rw [replaceListAux_count '\r' ['\n'] ['\n'] '\t' (by decide) (by decide)
      (by decide) _ _ (Nat.le_refl _)]

/-! ## Claim C8: `tools/apply_ccps_keyword_map.py`, the keyword-join pass

The two REST-backed dictionaries are modelled as lookup functions:
`url2id` (content-record URL → id, from `load_all_articles`) and
`name2id` (keyword name → id, from the re-query).  The join table is a
list of `(article_id, keyword_id)` pairs; upsert with
`on_conflict=article_id,keyword_id` inserts a pair only when absent.
-/

/-- One iteration of the join-row loop (an unresolved — missing or falsy —
article id increments the missing counter and contributes no rows). -/
def joinStep (i2k : Str → List Str) (url2id name2id : Str → Option Int)
    (acc : List (Int × Int) × Nat) (isu : Str) : List (Int × Int) × Nat :=
  match url2id (rstripSlash isu) with
  | none => (acc.1, acc.2 + 1)
  | some aid =>
    if aid = 0 then (acc.1, acc.2 + 1)
    else (acc.1 ++ (i2k isu).filterMap (fun k =>
      match name2id k with
      | none => none
      | some kid => if kid = 0 then none else some (aid, kid)), acc.2)

/-- The join-row construction loop of `main` (steps 2–3): returns the join
rows in order and the `missing_articles` count. -/
def buildJoinRows (issues : List Str) (i2k : Str → List Str)
    (url2id name2id : Str → Option Int) : List (Int × Int) × Nat :=
  issues.foldl (joinStep i2k url2id name2id) ([], 0)

/-- The rows contributed by a single issue. -/
def issueRows (i2k : Str → List Str) (url2id name2id : Str → Option Int)
    (isu : Str) : List (Int × Int) :=
  match url2id (rstripSlash isu) with
  | none => []
  | some aid =>
    if aid = 0 then []
    else (i2k isu).filterMap (fun k =>
      match name2id k with
      | none => none
      | some kid => if kid = 0 then none else some (aid, kid))

/-- The python falsy test `if not article_id`: missing or zero. -/
def unresolvedB (url2id : Str → Option Int) (isu : Str) : Bool :=
  match url2id (rstripSlash isu) with
  | none => true
  | some aid => aid = 0

/-- Upsert of join rows with `(article_id, keyword_id)` conflict
resolution: re-inserting an existing pair is a no-op. -/
def upsertJoinRows (table : List (Int × Int)) (rows : List (Int × Int)) :
    List (Int × Int) :=
  rows.foldl (fun t r => insertIfAbsent r t) table

/-- The batched upsert: `for batch in chunked(join_rows, 1000)`. -/
def applyJoinBatches (table : List (Int × Int)) (rows : List (Int × Int)) :
    List (Int × Int) :=
  (chunked rows 1000).foldl upsertJoinRows table

theorem joinStep_none (i2k : Str → List Str) (url2id name2id : Str → Option Int)
    (acc : List (Int × Int) × Nat) (isu : Str)
    (hp : url2id (rstripSlash isu) = none) :
    joinStep i2k url2id name2id acc isu = (acc.1, acc.2 + 1) := by
  unfold joinStep
  rw [hp]

theorem joinStep_zero (i2k : Str → List Str) (url2id name2id : Str → Option Int)
    (acc : List (Int × Int) × Nat) (isu : Str) (aid : Int)
    (hp : url2id (rstripSlash isu) = some aid) (hz : aid = 0) :
    joinStep i2k url2id name2id acc isu = (acc.1, acc.2 + 1) := by
  unfold joinStep
  simp only [hp]
  rw [if_pos hz]

theorem joinStep_some (i2k : Str → List Str) (url2id name2id : Str → Option Int)
    (acc : List (Int × Int) × Nat) (isu : Str) (aid : Int)
    (hp : url2id (rstripSlash isu) = some aid) (hz : ¬aid = 0) :
    joinStep i2k url2id name2id acc isu
      = (acc.1 ++ issueRows i2k url2id name2id isu, acc.2) := by
  unfold joinStep issueRows
  simp only [hp]
  rw [if_neg hz, if_neg hz]

theorem unresolvedB_eq_true (url2id : Str → Option Int) (isu : Str) :
    unresolvedB url2id isu = true
      ↔ url2id (rstripSlash isu) = none ∨ url2id (rstripSlash isu) = some 0 := by
  unfold unresolvedB
  cases hp : url2id (rstripSlash isu) with
  | none => simp
  | some a => simp [eq_comm]

theorem issueRows_none (i2k : Str → List Str) (url2id name2id : Str → Option Int)
    (isu : Str) (hp : url2id (rstripSlash isu) = none) :
    issueRows i2k url2id name2id isu = [] := by
  unfold issueRows
  rw [hp]

theorem issueRows_some (i2k : Str → List Str) (url2id name2id : Str → Option Int)
    (isu : Str) (a : Int) (hp : url2id (rstripSlash isu) = some a) :
    issueRows i2k url2id name2id isu
      = if a = 0 then []
        else (i2k isu).filterMap (fun k =>
          match name2id k with
          | none => none
          | some kid => if kid = 0 then none else some (a, kid)) := by
  unfold issueRows
  simp only [hp]

theorem issueRows_unresolved (i2k : Str → List Str)
    (url2id name2id : Str → Option Int) (isu : Str)
    (h : unresolvedB url2id isu = true) :
    issueRows i2k url2id name2id isu = [] := by
  unfold issueRows
  rcases (unresolvedB_eq_true url2id isu).mp h with hp | hp <;> rw [hp]
  simp

/-- The join loop, started from any accumulator. -/
theorem buildJoinRows_go (i2k : Str → List Str)
    (url2id name2id : Str → Option Int) :
    ∀ (issues : List Str) (acc : List (Int × Int) × Nat),
      issues.foldl (joinStep i2k url2id name2id) acc
        = (acc.1 ++ (issues.map (issueRows i2k url2id name2id)).flatten,
           acc.2 + issues.countP (unresolvedB url2id)) := by
  intro issues
  induction issues with
  | nil =>
    intro acc
    simp
  | cons isu rest ih =>
    intro acc
    rw [List.foldl_cons, ih, List.map_cons, List.flatten_cons, List.countP_cons]
    cases hp : url2id (rstripSlash isu) with
    | none =>
      rw [joinStep_none i2k url2id name2id acc isu hp]
      have hu : unresolvedB url2id isu = true :=
        (unresolvedB_eq_true url2id isu).mpr (Or.inl hp)
      rw [issueRows_unresolved i2k url2id name2id isu hu, hu]
      rw [Prod.mk.injEq]
      exact ⟨by simp, by rw [if_pos rfl]; omega⟩
    | some aid =>
      by_cases hz : aid = 0
      · rw [joinStep_zero i2k url2id name2id acc isu aid hp hz]
        have hu : unresolvedB url2id isu = true :=
          (unresolvedB_eq_true url2id isu).mpr (Or.inr (hz ▸ hp))
        rw [issueRows_unresolved i2k url2id name2id isu hu, hu]
        rw [Prod.mk.injEq]
        exact ⟨by simp, by rw [if_pos rfl]; omega⟩
      · rw [joinStep_some i2k url2id name2id acc isu aid hp hz]
        have hu : unresolvedB url2id isu = false := by
          unfold unresolvedB
          rw [hp]
          simp [hz]
        rw [hu]
        rw [Prod.mk.injEq]
        exact ⟨by simp, by simp⟩

theorem issueRows_mem (i2k : Str → List Str) (url2id name2id : Str → Option Int)
    (isu : Str) (aid kid : Int) :
    (aid, kid) ∈ issueRows i2k url2id name2id isu
      ↔ url2id (rstripSlash isu) = some aid ∧ aid ≠ 0
        ∧ ∃ k ∈ i2k isu, name2id k = some kid ∧ kid ≠ 0 := by
  cases hp : url2id (rstripSlash isu) with
  | none =>
    rw [issueRows_none i2k url2id name2id isu hp]
    simp
  | some a =>
    rw [issueRows_some i2k url2id name2id isu a hp]
    by_cases ha : a = 0
    · rw [if_pos ha]
      simp only [List.not_mem_nil, false_iff]
      rintro ⟨h1, h2, -⟩
      injection h1 with h1'
      exact h2 (h1' ▸ ha)
    · rw [if_neg ha]
      rw [List.mem_filterMap]
      constructor
      · rintro ⟨k, hk, hf⟩
        cases hn : name2id k with
        | none =>
          rw [hn] at hf
          exact Option.noConfusion hf
        | some kid' =>
          rw [hn] at hf
          have hred : (match some kid' with
              | none => none
              | some kid => if kid = 0 then none else some (a, kid))
              = (if kid' = 0 then none else some (a, kid')) := rfl
          rw [hred] at hf
          by_cases hzk : kid' = 0
          · rw [if_pos hzk] at hf
            exact Option.noConfusion hf
          · rw [if_neg hzk] at hf
            injection hf with hf'
            injection hf' with hf1 hf2
            subst hf1
            subst hf2
            exact ⟨rfl, ha, k, hk, hn, hzk⟩
      · rintro ⟨h1, h2, k, hk, hn, hzk⟩
        injection h1 with h1'
        subst h1'
        refine ⟨k, hk, ?_⟩
        rw [hn]
        have hred : (match some kid with
            | none => none
            | some kid => if kid = 0 then none else some (a, kid))
            = (if kid = 0 then none else some (a, kid)) := rfl
        rw [hred, if_neg hzk]

theorem upsertJoinRows_mem :
    ∀ (rows table : List (Int × Int)) (r : Int × Int),
      r ∈ upsertJoinRows table rows ↔ r ∈ table ∨ r ∈ rows := by
  intro rows
  induction rows with
  | nil =>
    intro table r
    simp [upsertJoinRows]
  | cons x rest ih =>
    intro table r
    have hstep : upsertJoinRows table (x :: rest)
        = upsertJoinRows (insertIfAbsent x table) rest := rfl
    rw [hstep, ih]
    rw [insertIfAbsent_mem]
    constructor
    · rintro ((h | rfl) | h)
      · exact Or.inl h
      · exact Or.inr (List.mem_cons_self _ _)
      · exact Or.inr (List.mem_cons_of_mem _ h)
    · rintro (h | h)
      · exact Or.inl (Or.inl h)
      · rcases List.mem_cons.mp h with rfl | h'
        · exact Or.inl (Or.inr rfl)
        · exact Or.inr h'

theorem upsertJoinRows_noop :
    ∀ (rows table : List (Int × Int)), (∀ r ∈ rows, r ∈ table) →
      upsertJoinRows table rows = table := by
  intro rows
  induction rows with
  | nil =>
    intro table _
    rfl
  | cons x rest ih =>
    intro table hsub
    have hstep : upsertJoinRows table (x :: rest)
        = upsertJoinRows (insertIfAbsent x table) rest := rfl
    have hx : insertIfAbsent x table = table := by
      unfold insertIfAbsent
      rw [if_pos (hsub x (List.mem_cons_self _ _))]
    rw [hstep, hx]
    exact ih table (fun r hr => hsub r (List.mem_cons_of_mem _ hr))

theorem upsertJoinRows_append (t : List (Int × Int)) (r1 r2 : List (Int × Int)) :
    upsertJoinRows t (r1 ++ r2) = upsertJoinRows (upsertJoinRows t r1) r2 :=
  List.foldl_append _ _ _ _

theorem foldl_upsert_chunks :
    ∀ (chunks : List (List (Int × Int))) (t : List (Int × Int)),
      chunks.foldl upsertJoinRows t = upsertJoinRows t chunks.flatten := by
  intro chunks
  induction chunks with
  | nil =>
    intro t
    rfl
  | cons c cs ih =>
    intro t
    rw [List.foldl_cons, ih, List.flatten_cons, upsertJoinRows_append]

/-- Batching in 1000s changes nothing about the resulting table. -/
theorem applyJoinBatches_eq (table rows : List (Int × Int)) :
    applyJoinBatches table rows = upsertJoinRows table rows := by
  unfold applyJoinBatches
  rw [foldl_upsert_chunks, chunked_eq_chunkRec, chunkRec_flatten 1000 rows (by omega)]

/-- **C8 (amended).**  A join row `(article_id, keyword_id)` is built
exactly for those (issue, keyword) pairs where the identifier (trailing
slashes stripped) resolves to a *nonzero* content-record id and the
keyword name to a *nonzero* keyword id (the python falsy test `if not
article_id` treats id 0 as unresolved); the number of unresolved
(missing-or-zero) issues is counted; the rows are upserted in batches of
1000 with `(article_id, keyword_id)` conflict resolution, which neither
loses rows nor differs from a single upsert, and re-running the upsert
changes nothing. -/
theorem keyword_join_spec (issues : List Str) (i2k : Str → List Str)
    (url2id name2id : Str → Option Int) (table : List (Int × Int)) :
    (∀ aid kid : Int,
      (aid, kid) ∈ (buildJoinRows issues i2k url2id name2id).1
        ↔ ∃ isu ∈ issues, url2id (rstripSlash isu) = some aid ∧ aid ≠ 0
            ∧ ∃ k ∈ i2k isu, name2id k = some kid ∧ kid ≠ 0)
    ∧ (buildJoinRows issues i2k url2id name2id).2
        = issues.countP (unresolvedB url2id)
    ∧ applyJoinBatches table (buildJoinRows issues i2k url2id name2id).1
        = upsertJoinRows table (buildJoinRows issues i2k url2id name2id).1
    ∧ (∀ r : Int × Int,
        r ∈ upsertJoinRows table (buildJoinRows issues i2k url2id name2id).1
          ↔ r ∈ table ∨ r ∈ (buildJoinRows issues i2k url2id name2id).1)
    ∧ upsertJoinRows
        (upsertJoinRows table (buildJoinRows issues i2k url2id name2id).1)
        (buildJoinRows issues i2k url2id name2id).1
        = upsertJoinRows table (buildJoinRows issues i2k url2id name2id).1 := by
  have hgo := buildJoinRows_go i2k url2id name2id issues ([], 0)
  have h1 : (buildJoinRows issues i2k url2id name2id).1
      = (issues.map (issueRows i2k url2id name2id)).flatten := by
    unfold buildJoinRows
    rw [hgo]
    simp
  have h2 : (buildJoinRows issues i2k url2id name2id).2
      = issues.countP (unresolvedB url2id) := by
    unfold buildJoinRows
    rw [hgo]
    simp
  refine ⟨?_, h2, applyJoinBatches_eq _ _, fun r => upsertJoinRows_mem _ _ r, ?_⟩
  · intro aid kid
    rw [h1, List.mem_flatten]
    constructor
    · rintro ⟨rows, hrows, hmem⟩
      rw [List.mem_map] at hrows
      obtain ⟨isu, hisu, rfl⟩ := hrows
      obtain ⟨ha, hz, hk⟩ := (issueRows_mem i2k url2id name2id isu aid kid).mp hmem
      exact ⟨isu, hisu, ha, hz, hk⟩
    · rintro ⟨isu, hisu, ha, hz, hk⟩
      exact ⟨issueRows i2k url2id name2id isu,
        List.mem_map.mpr ⟨isu, hisu, rfl⟩,
        (issueRows_mem i2k url2id name2id isu aid kid).mpr ⟨ha, hz, hk⟩⟩
  · apply upsertJoinRows_noop
    intro r hr
    exact (upsertJoinRows_mem _ _ r).mpr (Or.inr hr)

/-- Modelled from the claim's words, for comparison: a join row is built
for every pair whose identifier resolves to an *existing* content-record
id (any id) and whose keyword resolves to a keyword id, and only missing
identifiers are counted. -/
def buildJoinRowsClaim (issues : List Str) (i2k : Str → List Str)
    (url2id name2id : Str → Option Int) : List (Int × Int) × Nat :=
  issues.foldl (fun acc isu =>
    match url2id (rstripSlash isu) with
    | none => (acc.1, acc.2 + 1)
    | some aid =>
      (acc.1 ++ (i2k isu).filterMap (fun k =>
        (name2id k).map (fun kid => (aid, kid))), acc.2)) ([], 0)

/-- **C8, counterexample to the claim as stated.**  With one issue `"a"`
whose identifier resolves to the existing content-record id `0` and one
keyword `"k"` resolving to id `1`, the claim predicts the join row
`(0, 1)` and no unresolved issue, but the code (whose falsy test `if not
article_id` rejects id 0) builds no row and counts the issue missing. -/
theorem keyword_join_counterexample :
    buildJoinRows [str "a"] (fun _ => [str "k"])
        (fun u => if u = str "a" then some 0 else none) (fun _ => some 1)
      = ([], 1)
    ∧ buildJoinRowsClaim [str "a"] (fun _ => [str "k"])
        (fun u => if u = str "a" then some 0 else none) (fun _ => some 1)
      = ([(0, 1)], 0)
    ∧ buildJoinRows [str "a"] (fun _ => [str "k"])
        (fun u => if u = str "a" then some 0 else none) (fun _ => some 1)
      ≠ buildJoinRowsClaim [str "a"] (fun _ => [str "k"])
        (fun u => if u = str "a" then some 0 else none) (fun _ => some 1) := by
  refine ⟨by decide, by decide, by decide⟩

/-- Witness for **C8** at a concrete two-issue map: issue `"a/"` resolves
to article 7 with keywords `"k1"`, `"k2"` (ids 1, 2), issue `"b"` does
not resolve. -/
theorem keyword_join_spec_witness :
    (buildJoinRows [str "a/", str "b"]
        (fun isu => if isu = str "a/" then [str "k1", str "k2"] else [])
        (fun u => if u = str "a" then some 7 else none)
        (fun k => if k = str "k1" then some 1
          else if k = str "k2" then some 2 else none)).1 = [(7, 1), (7, 2)]
    ∧ (buildJoinRows [str "a/", str "b"]
        (fun isu => if isu = str "a/" then [str "k1", str "k2"] else [])
        (fun u => if u = str "a" then some 7 else none)
        (fun k => if k = str "k1" then some 1
          else if k = str "k2" then some 2 else none)).2 = 1
    ∧ ((7, 1) ∈ (buildJoinRows [str "a/", str "b"]
        (fun isu => if isu = str "a/" then [str "k1", str "k2"] else [])
        (fun u => if u = str "a" then some 7 else none)
        (fun k => if k = str "k1" then some 1
          else if k = str "k2" then some 2 else none)).1
      ↔ ∃ isu ∈ [str "a/", str "b"],
          (if rstripSlash isu = str "a" then some (7 : Int) else none) = some 7
          ∧ (7 : Int) ≠ 0
          ∧ ∃ k ∈ (if isu = str "a/" then [str "k1", str "k2"] else []),
              (if k = str "k1" then some (1 : Int)
                else if k = str "k2" then some 2 else none) = some 1
              ∧ (1 : Int) ≠ 0) := by
  refine ⟨by decide, by decide, ?_⟩
  exact (keyword_join_spec [str "a/", str "b"]
    (fun isu => if isu = str "a/" then [str "k1", str "k2"] else [])
    (fun u => if u = str "a" then some 7 else none)
    (fun k => if k = str "k1" then some 1
      else if k = str "k2" then some 2 else none) []).1 7 1

/-! ## `backend/collecter_past.py`: text extraction and the harvest loop

`extract_pdf_text` post-processing, python:
```python
text = "\n".join(parts).strip()
text = re.sub(r"[ \t]+\n", "\n", text)
text = re.sub(r"\n{3,}", "\n\n", text)
```
-/

/-- `re.sub(r"[ \t]+\n", "\n", text)` on the *reversed* string: each
newline swallows the run of spaces/tabs that preceded it. -/
def subWsNlRevAux : Nat → Str → Str
  | 0, _ => []
  | _, [] => []
  | fuel + 1, c :: rest =>
    if c = '\n' then
      '\n' :: subWsNlRevAux fuel (rest.dropWhile (fun c => c = ' ' || c = '\t'))
    else c :: subWsNlRevAux fuel rest

def subWsNl (s : Str) : Str := (subWsNlRevAux s.length s.reverse).reverse

/-- `re.sub(r"\n{3,}", "\n\n", text)`: collapse runs of three or more
newlines to exactly two. -/
def subNl3Aux : Nat → Str → Str
  | 0, _ => []
  | _, [] => []
  | fuel + 1, c :: rest =>
    if c = '\n' then
      (if (rest.takeWhile (fun c => c = '\n')).length + 1 ≥ 3 then ['\n', '\n']
       else List.replicate ((rest.takeWhile (fun c => c = '\n')).length + 1) '\n')
        ++ subNl3Aux fuel (rest.dropWhile (fun c => c = '\n'))
    else c :: subNl3Aux fuel rest

def subNl3 (s : Str) : Str := subNl3Aux s.length s

/-- `backend/collecter_past.py`, `extract_pdf_text`.  The argument models
the outcome of `PdfReader` + per-page `extract_text()`: `none` when any
exception is raised (the `except` branch logs a warning and returns `""`),
otherwise the per-page results (`none` per page models a `None` return,
absorbed by `or ""`). -/
def extract_pdf_text (parsed : Option (List (Option Str))) : Str :=
  match parsed with
  | none => []
  | some pages =>
    subNl3 (subWsNl (trimStr
      (List.intercalate ['\n'] (pages.map (fun p => p.getD [])))))

/-- The row upserted into the articles table. -/
structure Payload where
  title : Str
  content : Option Str
  source_page_url : Str
  source_pdf_url : Str
  published_year : Nat
  published_month : Nat
  pdf_bucket : Str
  pdf_path : Str
deriving DecidableEq

/-- Oracles for the harvest loop's effectful operations; `none` models a
raised exception (network error, 4xx/5xx via `raise_for_status`, storage
or upsert failure), which the loop body's `except` turns into a skip.
`parsePdf` is keyed by the downloaded bytes; `none` models a PDF parse
failure. -/
structure HarvestEnv where
  fetchPage : Str → Option Html
  download : Str → Option (List Nat)
  parsePdf : List Nat → Option (List (Option Str))
  upload : Str → List Nat → Option Unit
  upsertResp : Payload → Option Unit

inductive Reason
  | bad_ym
  | no_pdf_url
  | exception
deriving DecidableEq

/-- Observable actions of one loop iteration, in program order.  An
attempted operation appears with `ok = false` when it raised. -/
inductive Effect
  | fetch (url : Str)
  | download (url : Str) (ok : Bool)
  | upload (path : Str) (data : List Nat) (ok : Bool)
  | upsert (p : Payload) (ok : Bool)
  | appendSkip (url : Str) (reason : Reason)
  | saveState (processed : List Str)
deriving DecidableEq

inductive Outcome
  | alreadyDone
  | badYm
  | noPdfUrl
  | stored
  | errored
deriving DecidableEq

/-- Lexicographic string order, python `sorted` on strings. -/
def strLeB : Str → Str → Bool
  | [], _ => true
  | _ :: _, [] => false
  | a :: as, b :: bs => if a = b then strLeB as bs else a < b

def StrLeRel (a b : Str) : Prop := strLeB a b = true

instance : DecidableRel StrLeRel := fun a b => by
  unfold StrLeRel
  infer_instance

/-- `sorted(processed)` as written into the state file. -/
def pySortStr (l : List Str) : List Str := List.insertionSort StrLeRel l

/-- `f"{year}-{month:02d}-Beacon-English.pdf"`. -/
def pdf_filename (year month : Nat) : Str :=
  natStr year ++ str "-" ++ pad2 month ++ str "-Beacon-English.pdf"

/-- `f"beacon/{year}/{month:02d}/{pdf_filename}"`. -/
def object_path_of (year month : Nat) : Str :=
  str "beacon/" ++ natStr year ++ str "/" ++ pad2 month ++ str "/"
    ++ pdf_filename year month

/-- `f"Process Safety Beacon {year}-{month:02d}"`, the title fallback. -/
def defaultTitle (year month : Nat) : Str :=
  str "Process Safety Beacon " ++ natStr year ++ str "-" ++ pad2 month

/-- `title = extract_title_from_english_page(html) or f"…"`. -/
def titleOf (html : Html) (year month : Nat) : Str :=
  if extract_title_from_english_page html = [] then defaultTitle year month
  else extract_title_from_english_page html

/-- The payload built for one issue (`content if content else None`). -/
def mkPayload (env : HarvestEnv) (html : Html) (url pdfu : Str)
    (year month : Nat) (bucket : Str) (bytes : List Nat) : Payload :=
  { title := titleOf html year month
    content :=
      if extract_pdf_text (env.parsePdf bytes) = [] then none
      else some (extract_pdf_text (env.parsePdf bytes))
    source_page_url := url
    source_pdf_url := pdfu
    published_year := year
    published_month := month
    pdf_bucket := bucket
    pdf_path := object_path_of year month }

/-- One iteration of the backend harvest loop (`main`, the body of
`for english_url in english_pages`).  Returns the updated processed set,
the effect trace of the iteration, and the iteration's outcome.  (The
skip-log entry for an exception also records `str(e)` in python; the
message is not modelled.) -/
def processItem (env : HarvestEnv) (force : Bool) (bucket : Str)
    (processed : List Str) (url : Str) : List Str × List Effect × Outcome :=
  if force = false ∧ url ∈ processed then (processed, [], .alreadyDone)
  else
    match parse_year_month_from_english_url url with
    | none => (processed, [.appendSkip url .bad_ym], .badYm)
    | some (year, month) =>
      match env.fetchPage url with
      | none => (processed, [.fetch url, .appendSkip url .exception], .errored)
      | some html =>
        if extract_pdf_url_from_english_page html url = [] then
          (insertIfAbsent url processed,
           [.fetch url, .appendSkip url .no_pdf_url,
            .saveState (pySortStr (insertIfAbsent url processed))],
           .noPdfUrl)
        else
          match env.download (extract_pdf_url_from_english_page html url) with
          | none =>
            (processed,
             [.fetch url,
              .download (extract_pdf_url_from_english_page html url) false,
              .appendSkip url .exception],
             .errored)
          | some bytes =>
            match env.upload (object_path_of year month) bytes with
            | none =>
              (processed,
               [.fetch url,
                .download (extract_pdf_url_from_english_page html url) true,
                .upload (object_path_of year month) bytes false,
                .appendSkip url .exception],
               .errored)
            | some _ =>
              match env.upsertResp (mkPayload env html url
                  (extract_pdf_url_from_english_page html url)
                  year month bucket bytes) with
              | none =>
                (processed,
                 [.fetch url,
                  .download (extract_pdf_url_from_english_page html url) true,
                  .upload (object_path_of year month) bytes true,
                  .upsert (mkPayload env html url
                    (extract_pdf_url_from_english_page html url)
                    year month bucket bytes) false,
                  .appendSkip url .exception],
                 .errored)
              | some _ =>
                (insertIfAbsent url processed,
                 [.fetch url,
                  .download (extract_pdf_url_from_english_page html url) true,
                  .upload (object_path_of year month) bytes true,
                  .upsert (mkPayload env html url
                    (extract_pdf_url_from_english_page html url)
                    year month bucket bytes) true,
                  .saveState (pySortStr (insertIfAbsent url processed))],
                 .stored)

/-- `if limit is not None and done >= limit: break`. -/
def limitReached (limit : Option Nat) (done : Nat) : Bool :=
  match limit with
  | none => false
  | some l => done ≥ l

/-- The backend harvest loop over the discovered pages, with the `done`
counter and optional `--limit` break. -/
def runLoop (env : HarvestEnv) (force : Bool) (bucket : Str)
    (limit : Option Nat) : List Str → List Str → Nat → List Str × List Effect
  | [], processed, _ => (processed, [])
  | url :: rest, processed, done =>
    match processItem env force bucket processed url with
    | (p', effs, out) =>
      if out = Outcome.stored ∧ limitReached limit (done + 1) = true then
        (p', effs)
      else
        match runLoop env force bucket limit rest p'
            (if out = Outcome.stored then done + 1 else done) with
        | (pF, effsF) => (pF, effs ++ effsF)

/-- Application of an effect to the remote articles table (a map from
`source_page_url` to row): a successful upsert overwrites the row with
conflict key `source_page_url`; everything else leaves the table alone. -/
def applyEffect (db : Str → Option Payload) : Effect → (Str → Option Payload)
  | .upsert p true => fun u => if u = p.source_page_url then some p else db u
  | _ => db

def applyEffects (db : Str → Option Payload) (effs : List Effect) :
    Str → Option Payload :=
  effs.foldl applyEffect db

/-- Whether a trace contains any upsert attempt. -/
def hasUpsertB (effs : List Effect) : Bool :=
  effs.any (fun e =>
    match e with
    | .upsert _ _ => true
    | _ => false)

/-- Exhaustive characterisation of one harvest-loop iteration. -/
theorem processItem_cases (env : HarvestEnv) (force : Bool) (bucket : Str)
    (processed : List Str) (url : Str) (p' : List Str) (effs : List Effect)
    (out : Outcome)
    (h : processItem env force bucket processed url = (p', effs, out)) :
    (out = .alreadyDone ∧ force = false ∧ url ∈ processed
      ∧ p' = processed ∧ effs = [])
    ∨ (out = .badYm ∧ parse_year_month_from_english_url url = none
      ∧ p' = processed ∧ effs = [.appendSkip url .bad_ym])
    ∨ (out = .errored ∧ p' = processed ∧ Effect.fetch url ∈ effs
      ∧ (∀ p : Payload, Effect.upsert p true ∉ effs)
      ∧ (∀ l : List Str, Effect.saveState l ∉ effs))
    ∨ (out = .noPdfUrl ∧ p' = insertIfAbsent url processed
      ∧ effs = [.fetch url, .appendSkip url .no_pdf_url,
          .saveState (pySortStr p')])
    ∨ (out = .stored ∧ p' = insertIfAbsent url processed
      ∧ ∃ (p : Payload) (pdfu : Str) (bytes : List Nat),
          p.source_page_url = url
          ∧ effs = [.fetch url, .download pdfu true,
              .upload p.pdf_path bytes true, .upsert p true,
              .saveState (pySortStr p')]) := by
  unfold processItem at h
  split at h
  · rename_i hcond
    injection h with h1 h2
    injection h2 with h2 h3
    exact Or.inl ⟨h3.symm, hcond.1, hcond.2, h1.symm, h2.symm⟩
  · split at h
    · rename_i hparse
      injection h with h1 h2
      injection h2 with h2 h3
      exact Or.inr (Or.inl ⟨h3.symm, hparse, h1.symm, h2.symm⟩)
    · rename_i year month hparse
      split at h
      · injection h with h1 h2
        injection h2 with h2 h3
        refine Or.inr (Or.inr (Or.inl ⟨h3.symm, h1.symm, ?_, ?_, ?_⟩))
        · rw [← h2]
          exact List.mem_cons_self _ _
        · intro p hp
          rw [← h2] at hp
          simp at hp
        · intro l hl
          rw [← h2] at hl
          simp at hl
      · rename_i html hfetch
        split at h
        · rename_i hnopdf
          injection h with h1 h2
          injection h2 with h2 h3
          refine Or.inr (Or.inr (Or.inr (Or.inl ⟨h3.symm, h1.symm, ?_⟩)))
          rw [← h2, h1]
        · rename_i hpdf
          split at h
          · injection h with h1 h2
            injection h2 with h2 h3
            refine Or.inr (Or.inr (Or.inl ⟨h3.symm, h1.symm, ?_, ?_, ?_⟩))
            · rw [← h2]
              exact List.mem_cons_self _ _
            · intro p hp
              rw [← h2] at hp
              simp at hp
            · intro l hl
              rw [← h2] at hl
              simp at hl
          · rename_i bytes hdl
            split at h
            · injection h with h1 h2
              injection h2 with h2 h3
              refine Or.inr (Or.inr (Or.inl ⟨h3.symm, h1.symm, ?_, ?_, ?_⟩))
              · rw [← h2]
                exact List.mem_cons_self _ _
              · intro p hp
                rw [← h2] at hp
                simp at hp
              · intro l hl
                rw [← h2] at hl
                simp at hl
            · rename_i hupl
              split at h
              · injection h with h1 h2
                injection h2 with h2 h3
                refine Or.inr (Or.inr (Or.inl ⟨h3.symm, h1.symm, ?_, ?_, ?_⟩))
                · rw [← h2]
                  exact List.mem_cons_self _ _
                · intro p hp
                  rw [← h2] at hp
                  simp at hp
                · intro l hl
                  rw [← h2] at hl
                  simp at hl
              · rename_i hups
                injection h with h1 h2
                injection h2 with h2 h3
                refine Or.inr (Or.inr (Or.inr (Or.inr ⟨h3.symm, h1.symm,
                  mkPayload env html url
                    (extract_pdf_url_from_english_page html url)
                    year month bucket bytes,
                  extract_pdf_url_from_english_page html url, bytes,
                  rfl, ?_⟩)))
                rw [← h2, h1]
                rfl

/-- A table entry stays present under any further effects. -/
theorem applyEffects_mono :
    ∀ (effs : List Effect) (db : Str → Option Payload) (u : Str),
      (db u).isSome = true → ((applyEffects db effs) u).isSome = true := by
  intro effs
  induction effs with
  | nil =>
    intro db u h
    exact h
  | cons e rest ih =>
    intro db u h
    have hstep : applyEffects db (e :: rest) = applyEffects (applyEffect db e) rest := rfl
    rw [hstep]
    apply ih
    cases e with
    | upsert p ok =>
      cases ok with
      | false => exact h
      | true =>
        show (if u = p.source_page_url then some p else db u).isSome = true
        by_cases hu : u = p.source_page_url
        · rw [if_pos hu]
          rfl
        · rw [if_neg hu]
          exact h
    | fetch url => exact h
    | download url ok => exact h
    | upload path data ok => exact h
    | appendSkip url r => exact h
    | saveState l => exact h

/-- A successful upsert in the trace guarantees a row at its key. -/
theorem applyEffects_upsert :
    ∀ (effs : List Effect) (db : Str → Option Payload) (p : Payload),
      Effect.upsert p true ∈ effs →
      ((applyEffects db effs) p.source_page_url).isSome = true := by
  intro effs
  induction effs with
  | nil =>
    intro db p h
    simp at h
  | cons e rest ih =>
    intro db p h
    have hstep : applyEffects db (e :: rest) = applyEffects (applyEffect db e) rest := rfl
    rw [hstep]
    rcases List.mem_cons.mp h with rfl | h'
    · apply applyEffects_mono
      show (if p.source_page_url = p.source_page_url then some p else db _).isSome = true
      rw [if_pos rfl]
      rfl
    · exact ih _ p h'

theorem applyEffects_append (db : Str → Option Payload) (e1 e2 : List Effect) :
    applyEffects db (e1 ++ e2) = applyEffects (applyEffects db e1) e2 :=
  List.foldl_append _ _ _ _

/-- Membership in the processed set after one iteration. -/
theorem processItem_mem (env : HarvestEnv) (force : Bool) (bucket : Str)
    (processed : List Str) (url : Str) (p' : List Str) (effs : List Effect)
    (out : Outcome)
    (h : processItem env force bucket processed url = (p', effs, out))
    (u : Str) (hu : u ∈ p') :
    u ∈ processed
    ∨ (u = url ∧ ∃ p : Payload, Effect.upsert p true ∈ effs
        ∧ p.source_page_url = url)
    ∨ (u = url ∧ Effect.appendSkip url .no_pdf_url ∈ effs) := by
  rcases processItem_cases env force bucket processed url p' effs out h with
    ⟨-, -, -, hp, -⟩ | ⟨-, -, hp, -⟩ | ⟨-, hp, -⟩ |
    ⟨-, hp, heff⟩ | ⟨-, hp, p, pdfu, bytes, hsrc, heff⟩
  · exact Or.inl (hp ▸ hu)
  · exact Or.inl (hp ▸ hu)
  · exact Or.inl (hp ▸ hu)
  · rw [hp] at hu
    rcases (insertIfAbsent_mem u url processed).mp hu with h' | rfl
    · exact Or.inl h'
    · refine Or.inr (Or.inr ⟨rfl, ?_⟩)
      rw [heff]
      simp
  · rw [hp] at hu
    rcases (insertIfAbsent_mem u url processed).mp hu with h' | rfl
    · exact Or.inl h'
    · refine Or.inr (Or.inl ⟨rfl, p, ?_, hsrc⟩)
      rw [heff]
      simp

/-- One unfolding step of the harvest loop. -/
theorem runLoop_cons (env : HarvestEnv) (force : Bool) (bucket : Str)
    (limit : Option Nat) (url : Str) (rest : List Str) (processed : List Str)
    (done : Nat) (p' : List Str) (effs : List Effect) (out : Outcome)
    (hitem : processItem env force bucket processed url = (p', effs, out)) :
    runLoop env force bucket limit (url :: rest) processed done
      = if out = Outcome.stored ∧ limitReached limit (done + 1) = true then
          (p', effs)
        else
          ((runLoop env force bucket limit rest p'
              (if out = Outcome.stored then done + 1 else done)).1,
           effs ++ (runLoop env force bucket limit rest p'
              (if out = Outcome.stored then done + 1 else done)).2) := by
  simp only [runLoop, hitem]

/-- Run-level Progress-Set invariant: with effects applied to any initial
table, every member of the final processed set either has a row in the
resulting table or was skipped with reason `no_pdf_url`. -/
theorem runLoop_member (env : HarvestEnv) (force : Bool) (bucket : Str)
    (limit : Option Nat) :
    ∀ (urls processed : List Str) (done : Nat) (db0 : Str → Option Payload)
      (u : Str),
      u ∈ (runLoop env force bucket limit urls processed done).1 →
      u ∈ processed
      ∨ ((applyEffects db0 (runLoop env force bucket limit urls processed done).2) u).isSome = true
      ∨ Effect.appendSkip u .no_pdf_url
          ∈ (runLoop env force bucket limit urls processed done).2 := by
  intro urls
  induction urls with
  | nil =>
    intro processed done db0 u hu
    exact Or.inl hu
  | cons url rest ih =>
    intro processed done db0 u hu
    rcases hitem : processItem env force bucket processed url with ⟨p', effs, out⟩
    rw [runLoop_cons env force bucket limit url rest processed done p' effs out hitem] at hu ⊢
    by_cases hbrk : out = Outcome.stored ∧ limitReached limit (done + 1) = true
    · rw [if_pos hbrk] at hu ⊢
      rcases processItem_mem env force bucket processed url p' effs out hitem u hu with
        h' | ⟨rfl, p, hup, hsrc⟩ | ⟨rfl, hskip⟩
      · exact Or.inl h'
      · refine Or.inr (Or.inl ?_)
        have := applyEffects_upsert effs db0 p hup
        rw [hsrc] at this
        exact this
      · exact Or.inr (Or.inr hskip)
    · rw [if_neg hbrk] at hu ⊢
      rcases ih p' (if out = Outcome.stored then done + 1 else done)
          (applyEffects db0 effs) u hu with h' | h' | h'
      · rcases processItem_mem env force bucket processed url p' effs out hitem u h' with
          h'' | ⟨rfl, p, hup, hsrc⟩ | ⟨rfl, hskip⟩
        · exact Or.inl h''
        · refine Or.inr (Or.inl ?_)
          rw [applyEffects_append]
          apply applyEffects_mono
          have := applyEffects_upsert effs db0 p hup
          rw [hsrc] at this
          exact this
        · exact Or.inr (Or.inr (List.mem_append.mpr (Or.inl hskip)))
      · refine Or.inr (Or.inl ?_)
        rw [applyEffects_append]
        exact h'
      · exact Or.inr (Or.inr (List.mem_append.mpr (Or.inr h')))

/-- **C1 (amended).**  An identifier is added to the Progress Set (and the
set persisted via `save_state`) exactly when its iteration ends `stored`
*or* ends skipped with reason `no_pdf_url`; on the `stored` outcome the
effect trace is precisely fetch, download, upload, upsert (in that order)
followed by the state save; and over a whole run started from an empty
Progress Set, every identifier in the final set either has a row in the
remote table (any initial table, effects applied) or was skipped as
having no PDF URL. -/
theorem progress_set_spec (env : HarvestEnv) (force : Bool) (bucket : Str) :
    (∀ (processed : List Str) (url : Str) (p' : List Str) (effs : List Effect)
        (out : Outcome),
      processItem env force bucket processed url = (p', effs, out) →
      ((url ∈ p' ↔ url ∈ processed ∨ out = .stored ∨ out = .noPdfUrl)
        ∧ (out = .stored ∨ out = .noPdfUrl →
            Effect.saveState (pySortStr p') ∈ effs)
        ∧ (out = .stored → ∃ (p : Payload) (pdfu : Str) (bytes : List Nat),
            p.source_page_url = url
            ∧ effs = [.fetch url, .download pdfu true,
                .upload p.pdf_path bytes true, .upsert p true,
                .saveState (pySortStr p')])))
    ∧ (∀ (limit : Option Nat) (urls : List Str) (db0 : Str → Option Payload)
        (u : Str),
        u ∈ (runLoop env force bucket limit urls [] 0).1 →
        ((applyEffects db0 (runLoop env force bucket limit urls [] 0).2) u).isSome = true
        ∨ Effect.appendSkip u .no_pdf_url
            ∈ (runLoop env force bucket limit urls [] 0).2) := by
  constructor
  · intro processed url p' effs out h
    rcases processItem_cases env force bucket processed url p' effs out h with
      ⟨hout, -, hmem, hp, -⟩ | ⟨hout, -, hp, -⟩ | ⟨hout, hp, -, -, hnosave⟩ |
      ⟨hout, hp, heff⟩ | ⟨hout, hp, p, pdfu, bytes, hsrc, heff⟩
    · subst hout
      subst hp
      refine ⟨?_, by intro hc; rcases hc with hc | hc <;> exact Outcome.noConfusion hc,
        by intro hc; exact Outcome.noConfusion hc⟩
      simp [hmem]
    · subst hout
      subst hp
      refine ⟨?_, by intro hc; rcases hc with hc | hc <;> exact Outcome.noConfusion hc,
        by intro hc; exact Outcome.noConfusion hc⟩
      simp
    · subst hout
      subst hp
      refine ⟨?_, by intro hc; rcases hc with hc | hc <;> exact Outcome.noConfusion hc,
        by intro hc; exact Outcome.noConfusion hc⟩
      simp
    · subst hout
      subst hp
      refine ⟨?_, ?_, by intro hc; exact Outcome.noConfusion hc⟩
      · rw [insertIfAbsent_mem]
        constructor
        · rintro (h' | -)
          · exact Or.inl h'
          · exact Or.inr (Or.inr rfl)
        · rintro (h' | h' | -)
          · exact Or.inl h'
          · exact Outcome.noConfusion h'
          · exact Or.inr rfl
      · intro _
        rw [heff]
        simp
    · subst hout
      subst hp
      refine ⟨?_, ?_, ?_⟩
      · rw [insertIfAbsent_mem]
        constructor
        · rintro (h' | -)
          · exact Or.inl h'
          · exact Or.inr (Or.inl rfl)
        · rintro (h' | - | h')
          · exact Or.inl h'
          · exact Or.inr rfl
          · exact Outcome.noConfusion h'
      · intro _
        rw [heff]
        simp
      · intro _
        exact ⟨p, pdfu, bytes, hsrc, heff⟩
  · intro limit urls db0 u hu
    rcases runLoop_member env force bucket limit urls [] 0 db0 u hu with h' | h' | h'
    · simp at h'
    · exact Or.inl h'
    · exact Or.inr h'

/-- An issue page URL used in the concrete harvest scenarios. -/
def beaconUrl : Str := str "/archives/2020/january/english"

/-- A detail page with no anchors at all (so no PDF URL is found). -/
def noPdfHtml : Html := ⟨[], none⟩

/-- Environment for the C1 counterexample: the page fetch succeeds but the
page has no PDF link; nothing else succeeds. -/
def cexHarvestEnv : HarvestEnv :=
  { fetchPage := fun u => if u = beaconUrl then some noPdfHtml else none
    download := fun _ => none
    parsePdf := fun _ => none
    upload := fun _ _ => none
    upsertResp := fun _ => none }

/-- The effect trace of the `no_pdf_url` iteration on `beaconUrl`. -/
def cexEffsNoPdf : List Effect :=
  [.fetch beaconUrl, .appendSkip beaconUrl .no_pdf_url, .saveState [beaconUrl]]

/-- **C1, counterexample to the claim as stated.**  An issue page with no
PDF link ends in the skipped state `no_pdf_url`, yet the identifier *is*
added to the Progress Set and the set is persisted, with no upsert ever
attempted — so "identifiers that end in a skipped state are never added"
and "membership implies a corresponding remote record exists" are both
false of the code. -/
theorem progress_set_counterexample :
    processItem cexHarvestEnv false (str "ccps-pdfs") [] beaconUrl
      = ([beaconUrl], cexEffsNoPdf, .noPdfUrl)
    ∧ hasUpsertB cexEffsNoPdf = false
    ∧ beaconUrl ∈ (processItem cexHarvestEnv false (str "ccps-pdfs") [] beaconUrl).1 :=
  ⟨by decide, by decide, by decide⟩

/-- Witness for **C1** at the concrete no-PDF environment. -/
theorem progress_set_spec_witness :
    ((beaconUrl ∈ [beaconUrl]
        ↔ beaconUrl ∈ ([] : List Str) ∨ Outcome.noPdfUrl = Outcome.stored
          ∨ Outcome.noPdfUrl = Outcome.noPdfUrl)
      ∧ (Outcome.noPdfUrl = Outcome.stored ∨ Outcome.noPdfUrl = Outcome.noPdfUrl →
          Effect.saveState (pySortStr [beaconUrl]) ∈ cexEffsNoPdf)
      ∧ (Outcome.noPdfUrl = Outcome.stored →
          ∃ (p : Payload) (pdfu : Str) (bytes : List Nat),
            p.source_page_url = beaconUrl
            ∧ cexEffsNoPdf = [.fetch beaconUrl, .download pdfu true,
                .upload p.pdf_path bytes true, .upsert p true,
                .saveState (pySortStr [beaconUrl])]))
    ∧ (((applyEffects (fun _ => none)
          (runLoop cexHarvestEnv false (str "ccps-pdfs") none [beaconUrl] [] 0).2)
            beaconUrl).isSome = true
      ∨ Effect.appendSkip beaconUrl .no_pdf_url
          ∈ (runLoop cexHarvestEnv false (str "ccps-pdfs") none [beaconUrl] [] 0).2) :=
  ⟨(progress_set_spec cexHarvestEnv false (str "ccps-pdfs")).1 [] beaconUrl
      [beaconUrl] cexEffsNoPdf .noPdfUrl (by decide),
   (progress_set_spec cexHarvestEnv false (str "ccps-pdfs")).2 none [beaconUrl]
      (fun _ => none) beaconUrl (by decide)⟩

/-- **C2.**  An identifier already in the Progress Set is skipped entirely
when the force flag is unset: the iteration performs no effect at all (no
fetch, download, upload or upsert) and leaves the state unchanged.  With
the force flag set, membership never short-circuits: the page is
re-fetched, and when the iteration stores, the upsert overwrites the
existing row for that identifier in the remote table (one row per
identifier, not additive). -/
theorem harvest_reentry (env : HarvestEnv) (bucket : Str)
    (processed : List Str) (url : Str) :
    (url ∈ processed →
      processItem env false bucket processed url = (processed, [], .alreadyDone))
    ∧ (∀ y m : Nat, parse_year_month_from_english_url url = some (y, m) →
        Effect.fetch url ∈ (processItem env true bucket processed url).2.1)
    ∧ (∀ (p' : List Str) (effs : List Effect),
        processItem env true bucket processed url = (p', effs, .stored) →
        ∃ p : Payload, p.source_page_url = url ∧ Effect.upsert p true ∈ effs
          ∧ ∀ db : Str → Option Payload,
              applyEffects db effs = fun u => if u = url then some p else db u) := by
  refine ⟨?_, ?_, ?_⟩
  · intro hmem
    unfold processItem
    rw [if_pos ⟨rfl, hmem⟩]
  · intro y m hym
    rcases hitem : processItem env true bucket processed url with ⟨p', effs, out⟩
    rcases processItem_cases env true bucket processed url p' effs out hitem with
      ⟨-, hforce, -⟩ | ⟨-, hnone, -⟩ | ⟨-, -, hfetch, -⟩ |
      ⟨-, -, heff⟩ | ⟨-, -, p, pdfu, bytes, -, heff⟩
    · exact Bool.noConfusion hforce
    · rw [hym] at hnone
      exact Option.noConfusion hnone
    · exact hfetch
    · show Effect.fetch url ∈ effs
      rw [heff]
      exact List.mem_cons_self _ _
    · show Effect.fetch url ∈ effs
      rw [heff]
      exact List.mem_cons_self _ _
  · intro p' effs h
    rcases processItem_cases env true bucket processed url p' effs .stored h with
      ⟨hc, -⟩ | ⟨hc, -⟩ | ⟨hc, -⟩ | ⟨hc, -⟩ |
      ⟨-, -, p, pdfu, bytes, hsrc, heff⟩
    · exact Outcome.noConfusion hc
    · exact Outcome.noConfusion hc
    · exact Outcome.noConfusion hc
    · exact Outcome.noConfusion hc
    · refine ⟨p, hsrc, ?_, ?_⟩
      · rw [heff]
        simp
      · intro db
        rw [heff]
        funext u
        show (if u = p.source_page_url then some p else db u)
          = if u = url then some p else db u
        rw [hsrc]

/-- A detail page with a "Click here to Download" link and an `<h1>`. -/
def wHarvestHtml : Html :=
  ⟨[⟨str "Click here to Download", str "x.pdf"⟩],
   some (str "Beacon 2020 - English")⟩

/-- Environment in which every operation succeeds but the PDF fails to
parse. -/
def wHarvestEnv : HarvestEnv :=
  { fetchPage := fun u => if u = beaconUrl then some wHarvestHtml else none
    download := fun _ => some [1, 2, 3]
    parsePdf := fun _ => none
    upload := fun _ _ => some ()
    upsertResp := fun _ => some () }

/-- Witness for **C2**: with `beaconUrl` already processed, the unforced
run skips it with no effects, and the forced run re-fetches it; the
forced run stores, and its single upsert overwrites the row at
`beaconUrl`. -/
theorem harvest_reentry_witness :
    (beaconUrl ∈ [beaconUrl]
      ∧ processItem wHarvestEnv false (str "ccps-pdfs") [beaconUrl] beaconUrl
          = ([beaconUrl], [], .alreadyDone))
    ∧ Effect.fetch beaconUrl
        ∈ (processItem wHarvestEnv true (str "ccps-pdfs") [beaconUrl] beaconUrl).2.1
    ∧ (∃ p : Payload, p.source_page_url = beaconUrl
        ∧ Effect.upsert p true
            ∈ (processItem wHarvestEnv true (str "ccps-pdfs") [beaconUrl] beaconUrl).2.1
        ∧ ∀ db : Str → Option Payload,
            applyEffects db
              (processItem wHarvestEnv true (str "ccps-pdfs") [beaconUrl] beaconUrl).2.1
              = fun u => if u = beaconUrl then some p else db u) := by
  refine ⟨⟨by decide, ?_⟩, ?_, ?_⟩
  · exact (harvest_reentry wHarvestEnv (str "ccps-pdfs") [beaconUrl] beaconUrl).1
      (by decide)
  · exact (harvest_reentry wHarvestEnv (str "ccps-pdfs") [beaconUrl] beaconUrl).2.1
      2020 1 (by decide)
  · exact (harvest_reentry wHarvestEnv (str "ccps-pdfs") [beaconUrl] beaconUrl).2.2
      (processItem wHarvestEnv true (str "ccps-pdfs") [beaconUrl] beaconUrl).1
      (processItem wHarvestEnv true (str "ccps-pdfs") [beaconUrl] beaconUrl).2.1
      (by decide)

/-- **C4.**  When the PDF fails to parse, `extract_pdf_text` returns the
empty string rather than propagating an exception; the payload's content
field is then null; and the iteration still uploads the artifact, upserts
the record and reaches the `stored` state (the identifier is added and
persisted). -/
theorem pdf_parse_failure_tolerated (env : HarvestEnv) (force : Bool)
    (bucket : Str) (processed : List Str) (url : Str) (html : Html)
    (year month : Nat) (bytes : List Nat)
    (hskip : ¬(force = false ∧ url ∈ processed))
    (hym : parse_year_month_from_english_url url = some (year, month))
    (hf : env.fetchPage url = some html)
    (hpdf : ¬extract_pdf_url_from_english_page html url = [])
    (hdl : env.download (extract_pdf_url_from_english_page html url) = some bytes)
    (hparse : env.parsePdf bytes = none)
    (hup : env.upload (object_path_of year month) bytes = some ())
    (hups : env.upsertResp (mkPayload env html url
        (extract_pdf_url_from_english_page html url) year month bucket bytes)
      = some ()) :
    extract_pdf_text (env.parsePdf bytes) = []
    ∧ (mkPayload env html url (extract_pdf_url_from_english_page html url)
        year month bucket bytes).content = none
    ∧ processItem env force bucket processed url
        = (insertIfAbsent url processed,
           [.fetch url,
            .download (extract_pdf_url_from_english_page html url) true,
            .upload (object_path_of year month) bytes true,
            .upsert (mkPayload env html url
              (extract_pdf_url_from_english_page html url)
              year month bucket bytes) true,
            .saveState (pySortStr (insertIfAbsent url processed))],
           .stored) := by
  refine ⟨?_, ?_, ?_⟩
  · rw [hparse]
    rfl
  · unfold mkPayload
    rw [hparse]
    rfl
  · unfold processItem
    rw [if_neg hskip]
    simp only [hym, hf, hdl, hup, hups]
    rw [if_neg hpdf]

/-- Witness for **C4** at the concrete all-succeeding, parse-failing
environment. -/
theorem pdf_parse_failure_tolerated_witness :
    extract_pdf_text (wHarvestEnv.parsePdf [1, 2, 3]) = []
    ∧ (mkPayload wHarvestEnv wHarvestHtml beaconUrl
        (extract_pdf_url_from_english_page wHarvestHtml beaconUrl)
        2020 1 (str "ccps-pdfs") [1, 2, 3]).content = none
    ∧ processItem wHarvestEnv true (str "ccps-pdfs") [] beaconUrl
        = (insertIfAbsent beaconUrl [],
           [.fetch beaconUrl,
            .download (extract_pdf_url_from_english_page wHarvestHtml beaconUrl) true,
            .upload (object_path_of 2020 1) [1, 2, 3] true,
            .upsert (mkPayload wHarvestEnv wHarvestHtml beaconUrl
              (extract_pdf_url_from_english_page wHarvestHtml beaconUrl)
              2020 1 (str "ccps-pdfs") [1, 2, 3]) true,
            .saveState (pySortStr (insertIfAbsent beaconUrl []))],
           .stored) :=
  pdf_parse_failure_tolerated wHarvestEnv true (str "ccps-pdfs") [] beaconUrl
    wHarvestHtml 2020 1 [1, 2, 3]
    (by decide) (by decide) (by decide) (by decide) (by decide) (by decide)
    (by decide) (by decide)

end CCPS
